import Mathlib

/-!
Verification of the predicting-random repository: a shallow embedding of the
cyclic fixed-capacity queue (cyclic_fixed_queue.hpp), the reference TYPE_3
lagged-Fibonacci generator (prng.hpp), the GF(2) semi-canonical 32x32 matrix
and the state-recovery solver (solver.hpp), together with the scalar reference
computation of compare_implementation.cpp.

Machine integers are modelled as Nat with explicit reductions modulo 2^32
where the C++ code performs wrapping unsigned arithmetic, and as Int with
truncated division where the C++ code computes in signed 64-bit arithmetic.
const-qualified observers of the C++ classes are modelled as pure functions.
-/

set_option linter.unusedVariables false
set_option linter.unusedSectionVars false

/-- Two-to-the-32, the modulus of wrapping `std::uint32_t` arithmetic. -/
def U32 : Nat := 4294967296

/-- Two-to-the-31, the bound on generator outputs. -/
def U31 : Nat := 2147483648

/-- The value of a `std::uint32_t` bit pattern reinterpreted as `std::int32_t`
(two's complement). -/
def toInt32 (n : Nat) : Int := if n < U31 then (n : Int) else (n : Int) - U32

/-- Bounded population count; `popcount_aux f n` counts set bits among the low
`f` bits of `n`.  For `n < 2^f` this is the full population count, matching
`std::popcount` on a value of width at most `f`. -/
def popcount_aux : Nat → Nat → Nat
  | 0, _ => 0
  | f + 1, n => n % 2 + popcount_aux f (n / 2)

/-- Population count of a 32-bit value, modelling `std::popcount` on
`std::uint32_t`. -/
def popcount (n : Nat) : Nat := popcount_aux 32 n

/-- Bounded count of trailing zeros: `ctz_aux f n` scans the low `f` bits of
`n` for the first set bit. -/
def ctz_aux : Nat → Nat → Nat
  | 0, _ => 0
  | f + 1, n => if n % 2 = 1 then 0 else ctz_aux f (n / 2) + 1

/-- Count of trailing zeros of a non-zero 32-bit value, modelling
`std::countr_zero` on `std::uint32_t`. -/
def countr_zero (n : Nat) : Nat := ctz_aux 32 n

/-- The cyclic fixed-capacity queue of cyclic_fixed_queue.hpp: contiguous
storage of `C + 1` slots (one sentinel), a front index and the current size.
The length of the storage block is carried as an invariant of the type, as it
is in the C++ template by construction. -/
structure cyclic_fixed_queue (T : Type) (C : Nat) where
  storage_ : List T
  front_ : Nat
  size_ : Nat
  hlen : storage_.length = C + 1

namespace cyclic_fixed_queue

variable {T : Type} [Inhabited T] {C : Nat}

/-- The default-constructed queue: empty, with default-initialised storage. -/
def empty : cyclic_fixed_queue T C :=
  ⟨List.replicate (C + 1) default, 0, 0, by simp⟩

/-- Member `push`: writes `value` at slot `(front_ + size_) % (C+1)` and
increments the size.  Contract: `size_ < C`. -/
def push (q : cyclic_fixed_queue T C) (value : T) : cyclic_fixed_queue T C :=
  ⟨q.storage_.set ((q.front_ + q.size_) % (C + 1)) value, q.front_, q.size_ + 1,
    by rw [List.length_set]; exact q.hlen⟩

/-- Member `pop` for trivially destructible `T`: advances the front index with
wrap-around and decrements the size.  Contract: `size_ > 0`. -/
def pop (q : cyclic_fixed_queue T C) : cyclic_fixed_queue T C :=
  ⟨q.storage_, (q.front_ + 1) % (C + 1), q.size_ - 1, q.hlen⟩

/-- Member `pop_and_push`: pops the front, then pushes `value`. -/
def pop_and_push (q : cyclic_fixed_queue T C) (value : T) : cyclic_fixed_queue T C :=
  q.pop.push value

/-- Member `front`: the element at the front slot. -/
def front (q : cyclic_fixed_queue T C) : T :=
  q.storage_.getD q.front_ default

/-- Member `back`: the element at slot `(front_ + size_ - 1) % (C+1)`.
Contract: `size_ > 0`. -/
def back (q : cyclic_fixed_queue T C) : T :=
  q.storage_.getD ((q.front_ + q.size_ - 1) % (C + 1)) default

/-- Member `operator()`: relative indexing.  A negative `offset` is taken from
the back (`-1` is the most recently pushed element), a non-negative `offset`
from the front. -/
def rel (q : cyclic_fixed_queue T C) (offset : Int) : T :=
  if offset < 0 then
    q.storage_.getD (((q.front_ : Int) + (q.size_ : Int) + offset).toNat % (C + 1)) default
  else
    q.storage_.getD ((q.front_ + offset.toNat) % (C + 1)) default

/-- The logical sequence held by the queue, front first.  Queue equality in
the C++ code (`operator==`) compares exactly this sequence. -/
def toList (q : cyclic_fixed_queue T C) : List T :=
  (List.range q.size_).map (fun i => q.storage_.getD ((q.front_ + i) % (C + 1)) default)

theorem length_toList (q : cyclic_fixed_queue T C) : q.toList.length = q.size_ := by
  simp [toList]

theorem toList_getD (q : cyclic_fixed_queue T C) (k : Nat) (h : k < q.size_) :
    q.toList.getD k default = q.storage_.getD ((q.front_ + k) % (C + 1)) default := by
  unfold toList
  rw [List.getD_eq_getElem?_getD, List.getElem?_map]
  rw [List.getElem?_range h]
  rfl

theorem toList_push (q : cyclic_fixed_queue T C) (v : T) (h : q.size_ ≤ C) :
    (q.push v).toList = q.toList ++ [v] := by
  unfold toList push
  simp only
  rw [List.range_succ, List.map_append]
  congr 1
  · apply List.map_congr_left
    intro i hi
    rw [List.mem_range] at hi
    have hne : (q.front_ + i) % (C + 1) ≠ (q.front_ + q.size_) % (C + 1) := by
      intro heq
      have hmod : i ≡ q.size_ [MOD C + 1] :=
        Nat.ModEq.add_left_cancel' q.front_ heq
      have hieq : i = q.size_ :=
        hmod.eq_of_lt_of_lt (lt_of_lt_of_le hi (Nat.lt_succ_of_le h).le)
          (Nat.lt_succ_of_le h)
      exact absurd hieq (Nat.ne_of_lt hi)
    simp [List.getD, List.getElem?_set_ne (Ne.symm hne)]
  · simp only [List.map_cons, List.map_nil]
    congr 1
    have hlt : (q.front_ + q.size_) % (C + 1) < q.storage_.length := by
      rw [q.hlen]; exact Nat.mod_lt _ (Nat.succ_pos C)
    simp [List.getD, List.getElem?_set_self hlt]

theorem toList_pop (q : cyclic_fixed_queue T C) :
    q.pop.toList = q.toList.tail := by
  unfold toList pop
  simp only
  cases hs : q.size_ with
  | zero => simp
  | succ s =>
    rw [List.range_succ_eq_map, List.map_cons, List.tail_cons, List.map_map]
    apply List.map_congr_left
    intro i hi
    simp only [Function.comp]
    rw [Nat.mod_add_mod]
    congr 2
    omega

theorem toList_pop_and_push (q : cyclic_fixed_queue T C) (v : T) (h : q.size_ ≤ C + 1) :
    (q.pop_and_push v).toList = q.toList.tail ++ [v] := by
  unfold pop_and_push
  rw [toList_push _ _ (by simp [pop]; omega), toList_pop]

theorem size_pop_and_push (q : cyclic_fixed_queue T C) (v : T) :
    (q.pop_and_push v).size_ = q.size_ - 1 + 1 := by
  rfl

theorem rel_neg (q : cyclic_fixed_queue T C) (j : Nat) (h1 : 1 ≤ j) (h2 : j ≤ q.size_) :
    q.rel (-(j : Int)) = q.toList.getD (q.size_ - j) default := by
  unfold rel
  have hneg : -(j : Int) < 0 := by omega
  rw [if_pos hneg]
  rw [toList_getD _ _ (by omega)]
  congr 2
  omega

theorem rel_nonneg (q : cyclic_fixed_queue T C) (k : Nat) (h : k < q.size_) :
    q.rel (k : Int) = q.toList.getD k default := by
  unfold rel
  rw [if_neg (by omega)]
  rw [toList_getD _ _ h]
  simp

theorem front_eq_toList (q : cyclic_fixed_queue T C) (hf : q.front_ < C + 1)
    (hs : 0 < q.size_) : q.front = q.toList.getD 0 default := by
  unfold front
  rw [toList_getD _ _ hs]
  congr 1
  rw [Nat.add_zero, Nat.mod_eq_of_lt hf]

theorem back_eq_toList (q : cyclic_fixed_queue T C) (hs : 0 < q.size_) :
    q.back = q.toList.getD (q.size_ - 1) default := by
  unfold back
  rw [toList_getD _ _ (by omega)]
  congr 2
  omega

end cyclic_fixed_queue

namespace reference_generator

/-- The state table of the reference generator: a cyclic queue of 31 unsigned
32-bit words. -/
abbrev table_type := cyclic_fixed_queue Nat 31

/-- One iteration of the seeding loop of `table_from_seed`: computes
`(16807LL * static_cast(int32_t)(result.back())) % 2147483647` in signed
arithmetic (truncated remainder), adds `2147483647` if negative, and pushes
the result. -/
def seed_step (q : table_type) : table_type :=
  let value : Int := (16807 * toInt32 q.back).tmod 2147483647
  let value : Int := if value < 0 then value + 2147483647 else value
  q.push value.toNat

/-- `reference_generator::table_from_seed`: pushes the seed, runs the seeding
loop for i = 1..30, then performs three `pop_and_push(front())` steps. -/
def table_from_seed (seed : Nat) : table_type :=
  let q : table_type := cyclic_fixed_queue.empty.push seed
  let q := seed_step^[30] q
  (fun r : table_type => r.pop_and_push r.front)^[3] q

/-- `peek_state()`: the next internal state word, `queue_(-3) + queue_(-31)`
in wrapping `std::uint32_t` arithmetic. -/
def peek_state (g : table_type) : Nat := (g.rel (-3) + g.rel (-31)) % U32

/-- `peek()`: the next output value. -/
def peek (g : table_type) : Nat := peek_state g >>> 1

/-- The state effect of `advance()`: `queue_.pop_and_push(peek_state())`. -/
def advance_state (g : table_type) : table_type := g.pop_and_push (peek_state g)

/-- The value returned by `advance()`: the new state word shifted right by
one. -/
def advance_out (g : table_type) : Nat := peek_state g >>> 1

/-- The seed constructor `reference_generator(result_type)`: installs
`table_from_seed(seed)` and advances 310 times (loop indices 34..343). -/
def from_seed (seed : Nat) : table_type := advance_state^[310] (table_from_seed seed)

/-- The n-th value produced by repeatedly calling `advance()` (n = 0 is the
first call's return value). -/
def output (g : table_type) (n : Nat) : Nat := advance_out (advance_state^[n] g)

end reference_generator

/-- The scalar reference buffer of compare_implementation.cpp: entry for the
next index given the buffer built so far.  Note `16807LL * result[i - 1]`
promotes the unsigned word without a sign cast. -/
def ref_entry (seed : Nat) (l : List Nat) : Nat :=
  let i := l.length
  if i = 0 then seed
  else if i < 31 then
    let value : Int := (16807 * (l.getD (i - 1) 0 : Int)).tmod 2147483647
    let value : Int := if value < 0 then value + 2147483647 else value
    value.toNat
  else if i < 34 then l.getD (i - 31) 0
  else (l.getD (i - 3) 0 + l.getD (i - 31) 0) % U32

/-- The first `n` entries of the scalar reference buffer
(`reference_implementation` in compare_implementation.cpp). -/
def reference_implementation (seed : Nat) : Nat → List Nat
  | 0 => []
  | n + 1 =>
    let l := reference_implementation seed n
    l ++ [ref_entry seed l]

/-- Entry `i` of the scalar reference buffer. -/
def ref_val (seed i : Nat) : Nat := (reference_implementation seed (i + 1)).getD i 0

/-- Modelled from the spec, section 4.2 step 1: the word at position `i` of the
initial table, `t[0] = s` and
`t[i] = ((16807 * int32(t[i-1])) computed in 64-bit signed arithmetic,
reduced mod 2147483647 with 2147483647 added if negative)`. -/
def spec_seed_word (s : Nat) : Nat → Nat
  | 0 => s
  | i + 1 =>
    let v : Int := (16807 * toInt32 (spec_seed_word s i)).tmod 2147483647
    (if v < 0 then v + 2147483647 else v).toNat

/-- Modelled from the spec, section 4.2: the initial 31-word table. -/
def spec_initial_list (s : Nat) : List Nat := (List.range 31).map (spec_seed_word s)

/-- Modelled from the spec, section 4.2 step 2: one step moving the front value
to the back. -/
def spec_rotate (l : List Nat) : List Nat := l.tail ++ [l.getD 0 0]

/-- Modelled from the spec, sections 3 and 4.2: one advance of the recurrence
`s_i = s_{i-3} + s_{i-31}` modulo `2^32`, keeping the most recent 31 words. -/
def spec_advance (l : List Nat) : List Nat :=
  l.tail ++ [(l.getD (l.length - 3) 0 + l.getD (l.length - 31) 0) % U32]

/-- Modelled from the spec, section 4.2: seed expansion, the three copy steps,
and the 310-step warm-up. -/
def spec_construct (s : Nat) : List Nat :=
  spec_advance^[310] (spec_rotate^[3] (spec_initial_list s))

/-! Helper lemmas about lists built over an index range. -/

theorem getD_map_range {T : Type} (f : Nat → T) (n k : Nat) (d : T) (h : k < n) :
    ((List.range n).map f).getD k d = f k := by
  rw [List.getD_eq_getElem?_getD, List.getElem?_map, List.getElem?_range h]
  rfl

theorem getD_append_lt {T : Type} (l1 l2 : List T) (i : Nat) (d : T) (h : i < l1.length) :
    (l1 ++ l2).getD i d = l1.getD i d := by
  simp [List.getD, List.getElem?_append, h]

theorem tail_map_range {T : Type} (f : Nat → T) (n : Nat) :
    ((List.range (n + 1)).map f).tail = (List.range n).map (fun k => f (k + 1)) := by
  rw [List.range_succ_eq_map, List.map_cons, List.tail_cons, List.map_map]
  rfl

namespace reference_generator

/-- The queue produced by the seeding loop after `k` iterations. -/
def seed_loop (s k : Nat) : table_type :=
  seed_step^[k] ((cyclic_fixed_queue.empty : table_type).push s)

theorem seed_loop_invariant (s : Nat) :
    ∀ k, k ≤ 30 →
      (seed_loop s k).size_ = k + 1 ∧ (seed_loop s k).front_ = 0 ∧
      (seed_loop s k).toList = (List.range (k + 1)).map (spec_seed_word s) := by
  intro k
  induction k with
  | zero =>
    intro _
    refine ⟨rfl, rfl, ?_⟩
    rw [seed_loop, Function.iterate_zero_apply,
      cyclic_fixed_queue.toList_push _ _ (by simp [cyclic_fixed_queue.empty])]
    simp [cyclic_fixed_queue.toList, cyclic_fixed_queue.empty, List.range_succ,
      spec_seed_word]
  | succ k ih =>
    intro hk
    obtain ⟨hsz, hf, hl⟩ := ih (by omega)
    have hstep : seed_loop s (k + 1) = seed_step (seed_loop s k) := by
      rw [seed_loop, Function.iterate_succ_apply']
      rfl
    have hback : (seed_loop s k).back = spec_seed_word s k := by
      rw [cyclic_fixed_queue.back_eq_toList _ (by omega), hsz, hl]
      exact getD_map_range _ _ _ _ (by omega)
    refine ⟨?_, ?_, ?_⟩
    · rw [hstep]; simp [seed_step, cyclic_fixed_queue.push, hsz]
    · rw [hstep]; simp [seed_step, cyclic_fixed_queue.push, hf]
    · rw [hstep]
      show ((seed_loop s k).push _).toList = _
      rw [cyclic_fixed_queue.toList_push _ _ (by omega), hl, hback]
      rw [List.range_succ (n := k + 1), List.map_append]
      rfl

theorem table_from_seed_toList (s : Nat) :
    (table_from_seed s).size_ = 31 ∧ (table_from_seed s).front_ < 32 ∧
    (table_from_seed s).toList = spec_rotate^[3] (spec_initial_list s) := by
  obtain ⟨hsz, hf, hl⟩ := seed_loop_invariant s 30 (by omega)
  have hrot : ∀ (q : table_type), q.size_ = 31 → q.front_ < 32 →
      ∀ j, ((fun r : table_type => r.pop_and_push r.front)^[j] q).size_ = 31 ∧
        ((fun r : table_type => r.pop_and_push r.front)^[j] q).front_ < 32 ∧
        ((fun r : table_type => r.pop_and_push r.front)^[j] q).toList =
          spec_rotate^[j] q.toList := by
    intro q hq hqf j
    induction j with
    | zero => exact ⟨hq, hqf, rfl⟩
    | succ j ih =>
      obtain ⟨h1, h2, h3⟩ := ih
      rw [Function.iterate_succ_apply', Function.iterate_succ_apply']
      set r := (fun r : table_type => r.pop_and_push r.front)^[j] q with hr
      refine ⟨?_, ?_, ?_⟩
      · simp [cyclic_fixed_queue.size_pop_and_push, h1]
      · simp [cyclic_fixed_queue.pop_and_push, cyclic_fixed_queue.push, cyclic_fixed_queue.pop]
        omega
      · rw [← h3]
        show (r.pop_and_push r.front).toList = spec_rotate r.toList
        rw [cyclic_fixed_queue.toList_pop_and_push _ _ (by omega),
          cyclic_fixed_queue.front_eq_toList _ (by omega) (by omega)]
        rfl
  have := hrot _ hsz (by omega) 3
  rw [hl] at this
  exact ⟨this.1, this.2.1, this.2.2⟩

theorem toList_advance_state (g : table_type) (h : g.size_ = 31) :
    (advance_state g).toList = spec_advance g.toList ∧ (advance_state g).size_ = 31 := by
  constructor
  · show (g.pop_and_push (peek_state g)).toList = _
    rw [cyclic_fixed_queue.toList_pop_and_push _ _ (by omega)]
    unfold spec_advance
    congr 2
    unfold peek_state
    rw [show (-3 : Int) = -((3 : Nat) : Int) by norm_num,
      show (-31 : Int) = -((31 : Nat) : Int) by norm_num,
      cyclic_fixed_queue.rel_neg _ 3 (by omega) (by omega),
      cyclic_fixed_queue.rel_neg _ 31 (by omega) (by omega),
      cyclic_fixed_queue.length_toList, h]
    rfl
  · simp [advance_state, cyclic_fixed_queue.size_pop_and_push, h]

theorem toList_iterate_advance (g : table_type) (h : g.size_ = 31) (n : Nat) :
    (advance_state^[n] g).toList = spec_advance^[n] g.toList ∧
    (advance_state^[n] g).size_ = 31 := by
  induction n with
  | zero => exact ⟨rfl, h⟩
  | succ n ih =>
    rw [Function.iterate_succ_apply', Function.iterate_succ_apply']
    obtain ⟨h1, h2⟩ := ih
    obtain ⟨h3, h4⟩ := toList_advance_state _ h2
    rw [h3, h1]
    exact ⟨rfl, h4⟩

end reference_generator

/-! Properties of the scalar reference buffer. -/

theorem length_reference_implementation (s : Nat) :
    ∀ n, (reference_implementation s n).length = n := by
  intro n
  induction n with
  | zero => rfl
  | succ n ih => simp [reference_implementation, ih]

theorem getD_append_at_length {T : Type} (l : List T) (x d : T) :
    (l ++ [x]).getD l.length d = x := by
  simp [List.getD, List.getElem?_append]

theorem getD_reference_implementation (s : Nat) :
    ∀ n i, i < n → (reference_implementation s n).getD i 0 = ref_val s i := by
  intro n
  induction n with
  | zero => omega
  | succ n ih =>
    intro i hi
    by_cases hlt : i < n
    · show ((reference_implementation s n) ++ _).getD i 0 = _
      rw [getD_append_lt _ _ _ _ (by rw [length_reference_implementation]; exact hlt)]
      exact ih i hlt
    · have : i = n := by omega
      subst this
      rfl

theorem ref_entry_at (s n : Nat) :
    ref_val s n = ref_entry s (reference_implementation s n) := by
  show ((reference_implementation s n) ++ _).getD n 0 = _
  set l := reference_implementation s n with hl
  have h : n = l.length := (length_reference_implementation s n).symm
  rw [h]
  exact getD_append_at_length _ _ _

theorem ref_val_zero (s : Nat) : ref_val s 0 = s := rfl

/-- Evaluating the seeding-loop arithmetic on an unsigned (non-negative)
operand: the truncated remainder is already non-negative, so the negative
branch is not taken. -/
theorem ref_arith (t : Nat) :
    (if (16807 * (t : Int)).tmod 2147483647 < 0
      then (16807 * (t : Int)).tmod 2147483647 + 2147483647
      else (16807 * (t : Int)).tmod 2147483647).toNat = (16807 * t) % 2147483647 := by
  have hnn : (0 : Int) ≤ 16807 * (t : Int) := by positivity
  rw [Int.tmod_eq_emod hnn (by norm_num)]
  rw [if_neg (not_lt.mpr (Int.emod_nonneg _ (by norm_num)))]
  omega

/-- Evaluating the seeding-loop arithmetic when the signed 32-bit
interpretation of the operand is non-negative: it agrees with the unsigned
evaluation. -/
theorem seed_arith (t : Nat) (h : t < U31) :
    (if (16807 * toInt32 t).tmod 2147483647 < 0
      then (16807 * toInt32 t).tmod 2147483647 + 2147483647
      else (16807 * toInt32 t).tmod 2147483647).toNat = (16807 * t) % 2147483647 := by
  rw [toInt32, if_pos h]
  exact ref_arith t

theorem ref_val_small (s i : Nat) (h1 : 1 ≤ i) (h2 : i < 31) :
    ref_val s i = (16807 * ref_val s (i - 1)) % 2147483647 := by
  rw [ref_entry_at]
  unfold ref_entry
  rw [length_reference_implementation]
  rw [if_neg (by omega), if_pos h2]
  rw [getD_reference_implementation s i (i - 1) (by omega)]
  exact ref_arith _

theorem ref_val_copy (s i : Nat) (h1 : 31 ≤ i) (h2 : i < 34) :
    ref_val s i = ref_val s (i - 31) := by
  rw [ref_entry_at]
  unfold ref_entry
  rw [length_reference_implementation]
  rw [if_neg (by omega), if_neg (by omega), if_pos h2]
  exact getD_reference_implementation s i (i - 31) (by omega)

theorem ref_val_rec (s i : Nat) (h : 34 ≤ i) :
    ref_val s i = (ref_val s (i - 3) + ref_val s (i - 31)) % U32 := by
  rw [ref_entry_at]
  unfold ref_entry
  rw [length_reference_implementation]
  rw [if_neg (by omega), if_neg (by omega), if_neg (by omega)]
  rw [getD_reference_implementation s i (i - 3) (by omega),
    getD_reference_implementation s i (i - 31) (by omega)]

theorem spec_seed_word_eq_ref (s : Nat) (hs : s < U31) :
    ∀ i, i ≤ 30 → spec_seed_word s i = ref_val s i ∧ spec_seed_word s i < U31 := by
  intro i
  induction i with
  | zero => intro _; exact ⟨(ref_val_zero s).symm, hs⟩
  | succ i ih =>
    intro hi
    obtain ⟨heq, hlt⟩ := ih (by omega)
    have heq2 : spec_seed_word s (i + 1) = (16807 * spec_seed_word s i) % 2147483647 :=
      seed_arith _ hlt
    constructor
    · rw [heq2, heq, ref_val_small s (i + 1) (by omega) (by omega), Nat.add_sub_cancel]
    · rw [heq2]
      have hm := Nat.mod_lt (16807 * spec_seed_word s i) (show 0 < 2147483647 by norm_num)
      rw [U31]
      omega

theorem spec_rotate_eq_rotate (l : List Nat) (h : l ≠ []) :
    spec_rotate l = l.rotate 1 := by
  cases l with
  | nil => exact absurd rfl h
  | cons a t =>
    rw [List.rotate_cons_succ, List.rotate_zero]
    rfl

theorem spec_rotate_three (l : List Nat) (h : 3 ≤ l.length) :
    spec_rotate^[3] l = l.drop 3 ++ l.take 3 := by
  have h1 : spec_rotate l = l.rotate 1 := spec_rotate_eq_rotate l (by intro he; subst he; simp at h)
  have hlen1 : (l.rotate 1).length = l.length := l.length_rotate 1
  have h2 : spec_rotate (l.rotate 1) = (l.rotate 1).rotate 1 :=
    spec_rotate_eq_rotate _ (by intro he; rw [he] at hlen1; simp at hlen1; omega)
  have hlen2 : ((l.rotate 1).rotate 1).length = l.length := by
    rw [List.length_rotate, List.length_rotate]
  have h3 : spec_rotate ((l.rotate 1).rotate 1) = ((l.rotate 1).rotate 1).rotate 1 :=
    spec_rotate_eq_rotate _ (by intro he; rw [he] at hlen2; simp at hlen2; omega)
  show spec_rotate (spec_rotate (spec_rotate l)) = _
  rw [h1, h2, h3, List.rotate_rotate, List.rotate_rotate]
  exact List.rotate_eq_drop_append_take h

/-- The table constructed from a seed below `2^31` is the window of the scalar
reference buffer at offsets 3..33. -/
theorem window_base (s : Nat) (hs : s < U31) :
    (reference_generator.table_from_seed s).toList =
      (List.range 31).map (fun k => ref_val s (k + 3)) := by
  obtain ⟨hsz, hf, hl⟩ := reference_generator.table_from_seed_toList s
  rw [hl]
  have hlen : (spec_initial_list s).length = 31 := by
    simp [spec_initial_list]
  rw [spec_rotate_three _ (by omega)]
  apply List.ext_getElem
  · simp [hlen]
  · intro k h1 h2
    have hk : k < 31 := by
      simpa [hlen] using h2
    by_cases hk28 : k < 28
    · rw [List.getElem_append_left (by simp [hlen]; omega)]
      rw [List.getElem_drop]
      have h3 : 3 + k < 31 := by omega
      simp only [spec_initial_list]
      rw [List.getElem_map, List.getElem_range, List.getElem_map, List.getElem_range]
      exact (spec_seed_word_eq_ref s hs (3 + k) (by omega)).1.trans (by rw [Nat.add_comm])
    · rw [List.getElem_append_right (by simp [hlen]; omega)]
      rw [List.getElem_take]
      have hdl : ((spec_initial_list s).drop 3).length = 28 := by simp [hlen]
      simp only [hdl, spec_initial_list]
      rw [List.getElem_map, List.getElem_range, List.getElem_map, List.getElem_range]
      have hcopy : ref_val s (k + 3) = ref_val s (k + 3 - 31) :=
        ref_val_copy s (k + 3) (by omega) (by omega)
      have hidx : k + 3 - 31 = k - 28 := by omega
      rw [hcopy, hidx]
      exact (spec_seed_word_eq_ref s hs (k - 28) (by omega)).1

theorem list_eq_of_getD {T : Type} (l1 l2 : List T) (d : T) (hlen : l1.length = l2.length)
    (h : ∀ k, k < l1.length → l1.getD k d = l2.getD k d) : l1 = l2 := by
  apply List.ext_getElem hlen
  intro k h1 h2
  rw [← List.getD_eq_getElem l1 d h1, ← List.getD_eq_getElem l2 d h2]
  exact h k h1

theorem window_step (s j : Nat) (hj : 3 ≤ j) :
    spec_advance ((List.range 31).map (fun k => ref_val s (k + j))) =
      (List.range 31).map (fun k => ref_val s (k + (j + 1))) := by
  unfold spec_advance
  rw [List.length_map, List.length_range]
  rw [tail_map_range (fun k => ref_val s (k + j)) 30]
  rw [getD_map_range _ _ _ _ (by omega), getD_map_range _ _ _ _ (by omega)]
  have hnew : (ref_val s (28 + j) + ref_val s (0 + j)) % U32 = ref_val s (31 + j) := by
    have h3 : 31 + j - 3 = 28 + j := by omega
    have h31 : 31 + j - 31 = 0 + j := by omega
    rw [ref_val_rec s (31 + j) (by omega), h3, h31]
  rw [hnew]
  apply list_eq_of_getD _ _ 0
  · simp
  · intro k hk
    have hk31 : k < 31 := by simpa using hk
    rw [getD_map_range _ _ _ _ hk31]
    by_cases hk30 : k < 30
    · rw [getD_append_lt _ _ _ _ (by simpa using hk30)]
      rw [getD_map_range _ _ _ _ hk30]
      congr 1
      omega
    · have hk' : k = 30 := by omega
      subst hk'
      have h30 : ((List.range 30).map fun k => ref_val s (k + 1 + j)).length = 30 := by
        simp
      rw [show (((List.range 30).map fun k => ref_val s (k + 1 + j)) ++
            [ref_val s (31 + j)]).getD 30 0 = ref_val s (31 + j) from
          h30 ▸ getD_append_at_length _ _ _]
      congr 1
      omega

theorem window_iterate_list (s : Nat) :
    ∀ m, spec_advance^[m] ((List.range 31).map (fun k => ref_val s (k + 3))) =
      (List.range 31).map (fun k => ref_val s (k + (3 + m))) := by
  intro m
  induction m with
  | zero => rfl
  | succ m ih =>
    rw [Function.iterate_succ_apply', ih, window_step s (3 + m) (by omega)]
    rfl

/-- The state table after the seed construction and `m` further advances is
the window of the scalar reference buffer at offsets `3+m .. 33+m`. -/
theorem window_invariant (s : Nat) (hs : s < U31) (m : Nat) :
    (reference_generator.advance_state^[m] (reference_generator.table_from_seed s)).toList =
      (List.range 31).map (fun k => ref_val s (k + (3 + m))) ∧
    (reference_generator.advance_state^[m] (reference_generator.table_from_seed s)).size_ = 31 := by
  obtain ⟨hsz, hf, _⟩ := reference_generator.table_from_seed_toList s
  obtain ⟨h1, h2⟩ := reference_generator.toList_iterate_advance _ hsz m
  refine ⟨?_, h2⟩
  rw [h1, window_base s hs, window_iterate_list s m]

/-- Bit-exactness of the generator against the scalar reference, for seeds
whose signed 32-bit interpretation is non-negative. -/
theorem output_eq_ref (s : Nat) (hs : s < U31) (n : Nat) :
    reference_generator.output (reference_generator.from_seed s) n =
      ref_val s (n + 344) >>> 1 := by
  unfold reference_generator.output reference_generator.from_seed
  rw [← Function.iterate_add_apply]
  obtain ⟨hl, hsz⟩ := window_invariant s hs (n + 310)
  unfold reference_generator.advance_out reference_generator.peek_state
  rw [show (-3 : Int) = -((3 : Nat) : Int) by norm_num,
    show (-31 : Int) = -((31 : Nat) : Int) by norm_num,
    cyclic_fixed_queue.rel_neg _ 3 (by omega) (by omega),
    cyclic_fixed_queue.rel_neg _ 31 (by omega) (by omega),
    hsz, hl]
  rw [getD_map_range _ _ _ _ (by omega), getD_map_range _ _ _ _ (by omega)]
  have i1 : 31 - 3 + (3 + (n + 310)) = n + 341 := by omega
  have i2 : 31 - 31 + (3 + (n + 310)) = n + 313 := by omega
  rw [i1, i2]
  have e3 : (ref_val s (n + 341) + ref_val s (n + 313)) % U32 = ref_val s (n + 344) := by
    have h3 : n + 344 - 3 = n + 341 := by omega
    have h31 : n + 344 - 31 = n + 313 := by omega
    rw [ref_val_rec s (n + 344) (by omega), h3, h31]
  rw [e3]

/-! The GF(2) semi-canonical 32x32 matrix of solver.hpp. -/

/-- A 32x32 matrix over GF(2), stored as 32 rows of 32 bits.  Maintained in
row semi-canonical form by `push_row`. -/
structure semicanonical_b32x32 where
  rows_ : List Nat
  hlen : rows_.length = 32

namespace semicanonical_b32x32

/-- The default constructor: the zero matrix. -/
def zero : semicanonical_b32x32 := ⟨List.replicate 32 0, by simp⟩

/-- Member `operator[]`: the row at `index`. -/
def row (m : semicanonical_b32x32) (index : Nat) : Nat := m.rows_.getD index 0

/-- Member `row_sum`: the XOR of the rows selected by the set bits of
`select`. -/
def row_sum (m : semicanonical_b32x32) (select : Nat) : Nat :=
  (List.range 32).foldl
    (fun result i => result ^^^ (if select.testBit i then m.row i else 0)) 0

/-- Member `push_row`: reduces `r` by the current pivots, and if anything
remains, installs it at its pivot index after eliminating that pivot column
from every other row.  Returns whether the row was added. -/
def push_row (m : semicanonical_b32x32) (r : Nat) : Bool × semicanonical_b32x32 :=
  let r := r ^^^ m.row_sum r
  if r = 0 then (false, m)
  else
    let pivot := countr_zero r
    let eliminated := m.rows_.map (fun q => if q.testBit pivot then q ^^^ r else q)
    (true, ⟨eliminated.set pivot r, by rw [List.length_set, List.length_map]; exact m.hlen⟩)

/-- The rank of the matrix: the number of non-zero rows. -/
def mrank (m : semicanonical_b32x32) : Nat :=
  ((Finset.range 32).filter (fun i => m.row i ≠ 0)).card

/-- The row span of the matrix: values expressible as `row_sum` of some
selection. -/
def inSpan (m : semicanonical_b32x32) (v : Nat) : Prop :=
  ∃ s, s < U32 ∧ m.row_sum s = v

end semicanonical_b32x32

/-! A toolkit for GF(2) sums expressed as XOR folds over an index range. -/

/-- XOR of `f 0, ..., f (n-1)`. -/
def xorSum (f : Nat → Nat) (n : Nat) : Nat :=
  (List.range n).foldl (fun a i => a ^^^ f i) 0

/-- Boolean XOR of `f 0, ..., f (n-1)`. -/
def bXorSum (f : Nat → Bool) (n : Nat) : Bool :=
  (List.range n).foldl (fun a i => xor a (f i)) false

theorem xorSum_succ (f : Nat → Nat) (n : Nat) :
    xorSum f (n + 1) = xorSum f n ^^^ f n := by
  unfold xorSum
  rw [List.range_succ, List.foldl_append]
  rfl

theorem bXorSum_succ (f : Nat → Bool) (n : Nat) :
    bXorSum f (n + 1) = xor (bXorSum f n) (f n) := by
  unfold bXorSum
  rw [List.range_succ, List.foldl_append]
  rfl

theorem xorSum_congr (f g : Nat → Nat) (n : Nat) (h : ∀ i, i < n → f i = g i) :
    xorSum f n = xorSum g n := by
  induction n with
  | zero => rfl
  | succ n ih =>
    rw [xorSum_succ, xorSum_succ, ih (fun i hi => h i (by omega)), h n (by omega)]

theorem bXorSum_congr (f g : Nat → Bool) (n : Nat) (h : ∀ i, i < n → f i = g i) :
    bXorSum f n = bXorSum g n := by
  induction n with
  | zero => rfl
  | succ n ih =>
    rw [bXorSum_succ, bXorSum_succ, ih (fun i hi => h i (by omega)), h n (by omega)]

theorem xorSum_xor (f g : Nat → Nat) (n : Nat) :
    xorSum (fun i => f i ^^^ g i) n = xorSum f n ^^^ xorSum g n := by
  induction n with
  | zero => simp [xorSum]
  | succ n ih =>
    rw [xorSum_succ, xorSum_succ, xorSum_succ, ih]
    apply Nat.eq_of_testBit_eq
    intro b
    simp only [Nat.testBit_xor]
    rcases (xorSum f n).testBit b <;> rcases (xorSum g n).testBit b <;>
      rcases (f n).testBit b <;> rcases (g n).testBit b <;> rfl

theorem xorSum_zero_fn (f : Nat → Nat) (n : Nat) (h : ∀ i, i < n → f i = 0) :
    xorSum f n = 0 := by
  induction n with
  | zero => rfl
  | succ n ih =>
    rw [xorSum_succ, ih (fun i hi => h i (by omega)), h n (by omega)]
    simp

theorem xorSum_single (f : Nat → Nat) (n k : Nat) (hk : k < n)
    (h : ∀ i, i < n → i ≠ k → f i = 0) : xorSum f n = f k := by
  induction n with
  | zero => omega
  | succ n ih =>
    rw [xorSum_succ]
    by_cases hkn : k = n
    · subst hkn
      rw [xorSum_zero_fn _ _ (fun i hi => h i (by omega) (by omega))]
      exact Nat.zero_xor _
    · rw [ih (by omega) (fun i hi hik => h i (by omega) hik), h n (by omega) (Ne.symm hkn)]
      exact Nat.xor_zero _

theorem bXorSum_false_fn (f : Nat → Bool) (n : Nat) (h : ∀ i, i < n → f i = false) :
    bXorSum f n = false := by
  induction n with
  | zero => rfl
  | succ n ih =>
    rw [bXorSum_succ, ih (fun i hi => h i (by omega)), h n (by omega)]
    rfl

theorem bXorSum_single (f : Nat → Bool) (n k : Nat) (hk : k < n)
    (h : ∀ i, i < n → i ≠ k → f i = false) : bXorSum f n = f k := by
  induction n with
  | zero => omega
  | succ n ih =>
    rw [bXorSum_succ]
    by_cases hkn : k = n
    · subst hkn
      rw [bXorSum_false_fn _ _ (fun i hi => h i (by omega) (by omega))]
      exact Bool.false_xor _
    · rw [ih (by omega) (fun i hi hik => h i (by omega) hik), h n (by omega) (Ne.symm hkn)]
      simp

theorem testBit_xorSum (f : Nat → Nat) (n b : Nat) :
    (xorSum f n).testBit b = bXorSum (fun i => (f i).testBit b) n := by
  induction n with
  | zero => simp [xorSum, bXorSum]
  | succ n ih =>
    rw [xorSum_succ, bXorSum_succ, Nat.testBit_xor, ih]

theorem xorSum_lt_two_pow (f : Nat → Nat) (n w : Nat) (h : ∀ i, i < n → f i < 2 ^ w) :
    xorSum f n < 2 ^ w := by
  induction n with
  | zero => simp [xorSum]
  | succ n ih =>
    rw [xorSum_succ]
    exact Nat.xor_lt_two_pow (ih (fun i hi => h i (by omega))) (h n (by omega))

theorem xorSum_two_valued (g : Nat → Bool) (c n : Nat) :
    xorSum (fun i => if g i then c else 0) n = if bXorSum g n then c else 0 := by
  induction n with
  | zero => rfl
  | succ n ih =>
    rw [xorSum_succ, bXorSum_succ, ih]
    rcases hb : bXorSum g n <;> rcases hg : g n <;> simp [Nat.xor_self]

/-! Trailing-zero count and popcount facts. -/

theorem ctz_aux_spec :
    ∀ f x, x ≠ 0 → x < 2 ^ f →
      ctz_aux f x < f ∧ x.testBit (ctz_aux f x) = true ∧
      ∀ j, j < ctz_aux f x → x.testBit j = false := by
  intro f
  induction f with
  | zero => intro x hx hlt; omega
  | succ f ih =>
    intro x hx hlt
    by_cases hodd : x % 2 = 1
    · rw [ctz_aux, if_pos hodd]
      refine ⟨by omega, ?_, by omega⟩
      rw [Nat.testBit_zero]
      simp [hodd]
    · rw [ctz_aux, if_neg hodd]
      have hx2 : x / 2 ≠ 0 := by omega
      have hlt2 : x / 2 < 2 ^ f := by
        rw [pow_succ] at hlt
        omega
      obtain ⟨h1, h2, h3⟩ := ih (x / 2) hx2 hlt2
      refine ⟨by omega, ?_, ?_⟩
      · rw [Nat.testBit_add_one]
        exact h2
      · intro j hj
        cases j with
        | zero =>
          rw [Nat.testBit_zero]
          simp
          omega
        | succ j =>
          rw [Nat.testBit_add_one]
          exact h3 j (by omega)

theorem countr_zero_spec (x : Nat) (hx : x ≠ 0) (hlt : x < U32) :
    countr_zero x < 32 ∧ x.testBit (countr_zero x) = true ∧
    ∀ j, j < countr_zero x → x.testBit j = false :=
  ctz_aux_spec 32 x hx (by rw [U32] at hlt; norm_num; omega)

theorem xor_mod_two (x y : Nat) : (x ^^^ y) % 2 = (x % 2 + y % 2) % 2 := by
  have h := Nat.testBit_xor x y 0
  simp only [Nat.testBit_zero] at h
  rcases Nat.mod_two_eq_zero_or_one x with hx | hx <;>
    rcases Nat.mod_two_eq_zero_or_one y with hy | hy <;>
    rcases Nat.mod_two_eq_zero_or_one (x ^^^ y) with hxy | hxy <;>
    simp [hx, hy, hxy] at h ⊢ <;> omega

theorem xor_div_two (x y : Nat) : (x ^^^ y) / 2 = x / 2 ^^^ y / 2 := by
  apply Nat.eq_of_testBit_eq
  intro n
  rw [Nat.testBit_xor, ← Nat.testBit_add_one, ← Nat.testBit_add_one,
    ← Nat.testBit_add_one, Nat.testBit_xor]

theorem popcount_aux_zero : ∀ f, popcount_aux f 0 = 0 := by
  intro f
  induction f with
  | zero => rfl
  | succ f ih => simp [popcount_aux, ih]

theorem popcount_aux_xor :
    ∀ f x y, popcount_aux f (x ^^^ y) % 2 = (popcount_aux f x + popcount_aux f y) % 2 := by
  intro f
  induction f with
  | zero => intro x y; rfl
  | succ f ih =>
    intro x y
    show ((x ^^^ y) % 2 + popcount_aux f ((x ^^^ y) / 2)) % 2 = _
    rw [xor_div_two]
    have h1 := ih (x / 2) (y / 2)
    have h2 := xor_mod_two x y
    show (_ + popcount_aux f (x / 2 ^^^ y / 2)) % 2 =
      (x % 2 + popcount_aux f (x / 2) + (y % 2 + popcount_aux f (y / 2))) % 2
    omega

theorem popcount_aux_two_pow : ∀ f i, i < f → popcount_aux f (2 ^ i) = 1 := by
  intro f
  induction f with
  | zero => omega
  | succ f ih =>
    intro i hi
    cases i with
    | zero => simp [popcount_aux, popcount_aux_zero]
    | succ i =>
      show 2 ^ (i + 1) % 2 + popcount_aux f (2 ^ (i + 1) / 2) = 1
      have h1 : (2 : Nat) ^ (i + 1) % 2 = 0 := by
        simp [pow_succ, Nat.mul_mod]
      have h2 : (2 : Nat) ^ (i + 1) / 2 = 2 ^ i := by
        rw [pow_succ]
        omega
      rw [h1, h2, ih i (by omega)]

/-- The GF(2) dot product computed as `popcount(a & b) % 2`, the form used by
`solve_parities`. -/
def dotp (a b : Nat) : Nat := popcount (a &&& b) % 2

theorem dotp_xor (a1 a2 b : Nat) : dotp (a1 ^^^ a2) b = (dotp a1 b + dotp a2 b) % 2 := by
  unfold dotp popcount
  rw [Nat.and_xor_distrib_right, popcount_aux_xor]
  omega

theorem dotp_zero (b : Nat) : dotp 0 b = 0 := by
  simp [dotp, popcount, popcount_aux_zero]

theorem dotp_two_pow (i b : Nat) (hi : i < 32) :
    dotp (2 ^ i) b = if b.testBit i then 1 else 0 := by
  unfold dotp popcount
  rw [Nat.and_comm, Nat.and_two_pow]
  by_cases h : b.testBit i = true
  · rw [h]
    simp [popcount_aux_two_pow 32 i hi]
  · rw [if_neg h]
    rw [Bool.not_eq_true] at h
    rw [h]
    simp [popcount_aux_zero]

theorem dotp_xorSum (f : Nat → Nat) (n b : Nat) :
    dotp (xorSum f n) b = (Finset.range n).sum (fun i => dotp (f i) b) % 2 := by
  induction n with
  | zero => simp [xorSum, dotp_zero]
  | succ n ih =>
    rw [xorSum_succ, dotp_xor, ih, Finset.sum_range_succ]
    omega

namespace semicanonical_b32x32

/-- The semi-canonical-form invariant maintained by `push_row`: rows are
32-bit values; a non-zero row at index `i` has its lowest set bit at `i`;
and a pivot column contains exactly one set bit, in its pivot row. -/
def Inv (m : semicanonical_b32x32) : Prop :=
  (∀ i, i < 32 → m.row i < U32) ∧
  (∀ i, i < 32 → m.row i ≠ 0 → (m.row i).testBit i = true) ∧
  (∀ i, i < 32 → m.row i ≠ 0 → ∀ j, j < i → (m.row i).testBit j = false) ∧
  (∀ i j, i < 32 → j < 32 → m.row i ≠ 0 → j ≠ i → (m.row j).testBit i = false)

theorem row_zero (i : Nat) : zero.row i = 0 := by
  unfold zero row
  rw [List.getD_eq_getElem?_getD, List.getElem?_replicate]
  rcases lt_or_ge i 32 with h | h
  · rw [if_pos h]
    rfl
  · rw [if_neg (by omega)]
    rfl

theorem Inv_zero : Inv zero := by
  refine ⟨?_, ?_, ?_, ?_⟩ <;> intro i <;> simp [row_zero, U32]

theorem row_sum_eq_xorSum (m : semicanonical_b32x32) (select : Nat) :
    m.row_sum select = xorSum (fun i => if select.testBit i then m.row i else 0) 32 := rfl

theorem row_sum_lt (m : semicanonical_b32x32) (hInv : Inv m) (s : Nat) :
    m.row_sum s < U32 := by
  rw [row_sum_eq_xorSum]
  have hU : U32 = 2 ^ 32 := by rw [U32]; norm_num
  rw [hU]
  apply xorSum_lt_two_pow
  intro i hi
  by_cases h : s.testBit i = true
  · rw [if_pos h]
    have hb := hInv.1 i hi
    rw [hU] at hb
    exact hb
  · rw [if_neg h]
    positivity

theorem row_sum_linear (m : semicanonical_b32x32) (s t : Nat) :
    m.row_sum (s ^^^ t) = m.row_sum s ^^^ m.row_sum t := by
  rw [row_sum_eq_xorSum, row_sum_eq_xorSum, row_sum_eq_xorSum, ← xorSum_xor]
  apply xorSum_congr
  intro i hi
  rw [Nat.testBit_xor]
  by_cases hs : s.testBit i = true <;> by_cases ht : t.testBit i = true <;>
    simp [hs, ht, Nat.xor_self]

theorem row_sum_two_pow (m : semicanonical_b32x32) (i : Nat) (hi : i < 32) :
    m.row_sum (2 ^ i) = m.row i := by
  rw [row_sum_eq_xorSum]
  rw [xorSum_single _ 32 i hi]
  · simp [Nat.testBit_two_pow]
  · intro j hj hji
    rw [if_neg]
    rw [Nat.testBit_two_pow]
    simp [Ne.symm hji]

theorem testBit_row_sum (m : semicanonical_b32x32) (s b : Nat) :
    (m.row_sum s).testBit b =
      bXorSum (fun j => (if s.testBit j then m.row j else 0).testBit b) 32 := by
  rw [row_sum_eq_xorSum, testBit_xorSum]

/-- Reduction `v XOR row_sum(v)` clears every pivot column. -/
theorem reduce_pivot_bit (m : semicanonical_b32x32) (hInv : Inv m) (v i : Nat)
    (hi : i < 32) (hnz : m.row i ≠ 0) :
    (v ^^^ m.row_sum v).testBit i = false := by
  rw [Nat.testBit_xor, testBit_row_sum]
  rw [bXorSum_single _ 32 i hi]
  · by_cases h : v.testBit i = true
    · rw [h, if_pos rfl, hInv.2.1 i hi hnz]
      rfl
    · rw [Bool.not_eq_true] at h
      rw [h, if_neg (by simp), Nat.zero_testBit]
      rfl
  · intro j hj hji
    by_cases h : v.testBit j = true
    · rw [if_pos h]
      exact hInv.2.2.2 i j hi hj hnz hji
    · rw [if_neg h]
      exact Nat.zero_testBit i

/-- A span element with all pivot-column bits clear is zero. -/
theorem row_sum_eq_zero_of_pivot_bits (m : semicanonical_b32x32) (hInv : Inv m) (t : Nat)
    (h : ∀ i, i < 32 → m.row i ≠ 0 → (m.row_sum t).testBit i = false) :
    m.row_sum t = 0 := by
  have hsel : ∀ j, j < 32 → t.testBit j = true → m.row j = 0 := by
    intro j hj htj
    by_contra hnz
    have hbit : (m.row_sum t).testBit j = true := by
      rw [testBit_row_sum]
      rw [bXorSum_single _ 32 j hj]
      · rw [if_pos htj]
        exact hInv.2.1 j hj hnz
      · intro i hi hij
        by_cases hti : t.testBit i = true
        · rw [if_pos hti]
          exact hInv.2.2.2 j i hj hi hnz hij
        · rw [if_neg hti]
          exact Nat.zero_testBit j
    rw [h j hj hnz] at hbit
    exact Bool.false_ne_true hbit
  rw [row_sum_eq_xorSum]
  apply xorSum_zero_fn
  intro i hi
  by_cases hti : t.testBit i = true
  · rw [if_pos hti, hsel i hi hti]
  · rw [if_neg hti]

/-- The one-pass reduction of `push_row` annihilates exactly the span. -/
theorem reduce_eq_zero_iff (m : semicanonical_b32x32) (hInv : Inv m) (v : Nat)
    (hv : v < U32) : v ^^^ m.row_sum v = 0 ↔ m.inSpan v := by
  constructor
  · intro h
    refine ⟨v, hv, ?_⟩
    have := Nat.xor_eq_zero.mp h
    omega
  · rintro ⟨s, hs, hsv⟩
    subst hsv
    rw [← row_sum_linear]
    apply row_sum_eq_zero_of_pivot_bits m hInv
    intro i hi hnz
    rw [row_sum_linear]
    exact reduce_pivot_bit m hInv (m.row_sum s) i hi hnz

end semicanonical_b32x32

theorem getD_set_self_of_lt {T : Type} (l : List T) (p : Nat) (v d : T)
    (h : p < l.length) : (l.set p v).getD p d = v := by
  simp [List.getD, List.getElem?_set_self h]

theorem getD_set_ne_of_ne {T : Type} (l : List T) (p : Nat) (v d : T) (i : Nat)
    (h : i ≠ p) : (l.set p v).getD i d = l.getD i d := by
  simp [List.getD, List.getElem?_set_ne (Ne.symm h)]

theorem getD_map_of_lt {T : Type} (g : T → T) (l : List T) (i : Nat) (d : T)
    (h : i < l.length) : (l.map g).getD i d = g (l.getD i d) := by
  rw [List.getD_eq_getElem?_getD, List.getElem?_map, List.getD_eq_getElem?_getD,
    List.getElem?_eq_getElem h]
  rfl

namespace semicanonical_b32x32

theorem push_row_of_reduce_zero (m : semicanonical_b32x32) (r : Nat)
    (h : r ^^^ m.row_sum r = 0) : m.push_row r = (false, m) := by
  unfold push_row
  simp [h]

theorem push_row_fst (m : semicanonical_b32x32) (r : Nat)
    (h : r ^^^ m.row_sum r ≠ 0) : (m.push_row r).1 = true := by
  unfold push_row
  simp [h]

theorem push_row_row (m : semicanonical_b32x32) (r : Nat)
    (h : r ^^^ m.row_sum r ≠ 0) (hp : countr_zero (r ^^^ m.row_sum r) < 32)
    (i : Nat) (hi : i < 32) :
    (m.push_row r).2.row i =
      if i = countr_zero (r ^^^ m.row_sum r) then r ^^^ m.row_sum r
      else if (m.row i).testBit (countr_zero (r ^^^ m.row_sum r))
        then m.row i ^^^ (r ^^^ m.row_sum r) else m.row i := by
  have hbody : (m.push_row r).2.rows_ =
      (m.rows_.map (fun q => if q.testBit (countr_zero (r ^^^ m.row_sum r))
        then q ^^^ (r ^^^ m.row_sum r) else q)).set (countr_zero (r ^^^ m.row_sum r))
        (r ^^^ m.row_sum r) := by
    unfold push_row
    simp [h]
  show (m.push_row r).2.rows_.getD i 0 = _
  rw [hbody]
  by_cases hip : i = countr_zero (r ^^^ m.row_sum r)
  · subst hip
    rw [if_pos rfl]
    apply getD_set_self_of_lt
    rw [List.length_map, m.hlen]
    exact hp
  · rw [if_neg hip]
    rw [getD_set_ne_of_ne _ _ _ _ _ hip]
    rw [getD_map_of_lt _ _ _ _ (by rw [m.hlen]; exact hi)]
    rfl

/-- Preliminary facts about a successful `push_row`: the reduced row is a
32-bit value, its pivot is in range, set, minimal, clear at every existing
pivot column, and the pivot slot is empty. -/
theorem push_prelim (m : semicanonical_b32x32) (hInv : Inv m) (r : Nat) (hr : r < U32)
    (hne : r ^^^ m.row_sum r ≠ 0) :
    (r ^^^ m.row_sum r) < U32 ∧ countr_zero (r ^^^ m.row_sum r) < 32 ∧
    (r ^^^ m.row_sum r).testBit (countr_zero (r ^^^ m.row_sum r)) = true ∧
    (∀ j, j < countr_zero (r ^^^ m.row_sum r) → (r ^^^ m.row_sum r).testBit j = false) ∧
    (∀ i, i < 32 → m.row i ≠ 0 → (r ^^^ m.row_sum r).testBit i = false) ∧
    m.row (countr_zero (r ^^^ m.row_sum r)) = 0 := by
  have hlt : (r ^^^ m.row_sum r) < U32 := by
    have h1 := row_sum_lt m hInv r
    rw [U32] at hr h1 ⊢
    have : (4294967296 : Nat) = 2 ^ 32 := by norm_num
    rw [this] at hr h1 ⊢
    exact Nat.xor_lt_two_pow hr h1
  obtain ⟨hp, hbit, hmin⟩ := countr_zero_spec _ hne hlt
  have hpiv : ∀ i, i < 32 → m.row i ≠ 0 → (r ^^^ m.row_sum r).testBit i = false :=
    fun i hi hnz => reduce_pivot_bit m hInv r i hi hnz
  refine ⟨hlt, hp, hbit, hmin, hpiv, ?_⟩
  by_contra hnz
  have hcontra := hpiv _ hp hnz
  rw [hbit] at hcontra
  simp at hcontra

end semicanonical_b32x32

theorem xor_cancel_right (a b : Nat) : (a ^^^ b) ^^^ b = a := by
  rw [Nat.xor_assoc, Nat.xor_self, Nat.xor_zero]

theorem ne_zero_of_testBit (x b : Nat) (h : x.testBit b = true) : x ≠ 0 := by
  intro h0
  rw [h0, Nat.zero_testBit] at h
  exact Bool.false_ne_true h

theorem xor_lt_U32 (a b : Nat) (ha : a < U32) (hb : b < U32) : a ^^^ b < U32 := by
  have h32 : U32 = 2 ^ 32 := by rw [U32]; norm_num
  rw [h32] at ha hb ⊢
  exact Nat.xor_lt_two_pow ha hb

namespace semicanonical_b32x32

theorem push_row_nonzero_iff (m : semicanonical_b32x32) (hInv : Inv m) (r : Nat)
    (hr : r < U32) (hne : r ^^^ m.row_sum r ≠ 0) (i : Nat) (hi : i < 32)
    (hip : i ≠ countr_zero (r ^^^ m.row_sum r)) :
    ((m.push_row r).2.row i ≠ 0 ↔ m.row i ≠ 0) := by
  obtain ⟨hlt, hp, hbit, hmin, hpiv, hp0⟩ := push_prelim m hInv r hr hne
  rw [push_row_row m r hne hp i hi, if_neg hip]
  by_cases hz : m.row i = 0
  · rw [hz]
    simp [Nat.zero_testBit]
  · by_cases hbp : (m.row i).testBit (countr_zero (r ^^^ m.row_sum r)) = true
    · rw [if_pos hbp]
      have hxb : (m.row i ^^^ (r ^^^ m.row_sum r)).testBit i = true := by
        rw [Nat.testBit_xor, hInv.2.1 i hi hz, hpiv i hi hz]
        rfl
      constructor
      · intro _; exact hz
      · intro _; exact ne_zero_of_testBit _ _ hxb
    · rw [if_neg hbp]

theorem push_row_true_Inv (m : semicanonical_b32x32) (hInv : Inv m) (r : Nat)
    (hr : r < U32) (hne : r ^^^ m.row_sum r ≠ 0) : Inv (m.push_row r).2 := by
  obtain ⟨hlt, hp, hbit, hmin, hpiv, hp0⟩ := push_prelim m hInv r hr hne
  have hrow : ∀ i, i < 32 → (m.push_row r).2.row i =
      if i = countr_zero (r ^^^ m.row_sum r) then r ^^^ m.row_sum r
      else if (m.row i).testBit (countr_zero (r ^^^ m.row_sum r))
        then m.row i ^^^ (r ^^^ m.row_sum r) else m.row i :=
    fun i hi => push_row_row m r hne hp i hi
  refine ⟨?_, ?_, ?_, ?_⟩
  · intro i hi
    rw [hrow i hi]
    by_cases h1 : i = countr_zero (r ^^^ m.row_sum r)
    · rw [if_pos h1]; exact hlt
    · rw [if_neg h1]
      by_cases h2 : (m.row i).testBit (countr_zero (r ^^^ m.row_sum r)) = true
      · rw [if_pos h2]; exact xor_lt_U32 _ _ (hInv.1 i hi) hlt
      · rw [if_neg h2]; exact hInv.1 i hi
  · intro i hi hnz
    rw [hrow i hi] at hnz ⊢
    by_cases h1 : i = countr_zero (r ^^^ m.row_sum r)
    · rw [if_pos h1] at hnz ⊢
      rw [h1]
      exact hbit
    · rw [if_neg h1] at hnz ⊢
      by_cases h2 : (m.row i).testBit (countr_zero (r ^^^ m.row_sum r)) = true
      · rw [if_pos h2] at hnz ⊢
        have hz : m.row i ≠ 0 := by
          intro h0
          rw [h0, Nat.zero_testBit] at h2
          exact Bool.false_ne_true h2
        rw [Nat.testBit_xor, hInv.2.1 i hi hz, hpiv i hi hz]
        rfl
      · rw [if_neg h2] at hnz ⊢
        exact hInv.2.1 i hi hnz
  · intro i hi hnz j hj
    rw [hrow i hi] at hnz ⊢
    by_cases h1 : i = countr_zero (r ^^^ m.row_sum r)
    · rw [if_pos h1] at hnz ⊢
      exact hmin j (by omega)
    · rw [if_neg h1] at hnz ⊢
      by_cases h2 : (m.row i).testBit (countr_zero (r ^^^ m.row_sum r)) = true
      · rw [if_pos h2] at hnz ⊢
        have hz : m.row i ≠ 0 := by
          intro h0
          rw [h0, Nat.zero_testBit] at h2
          exact Bool.false_ne_true h2
        have hpl : i < countr_zero (r ^^^ m.row_sum r) := by
          rcases lt_trichotomy i (countr_zero (r ^^^ m.row_sum r)) with hh | hh | hh
          · exact hh
          · exact absurd hh h1
          · have hbelow := hInv.2.2.1 i hi hz _ hh
            rw [hbelow] at h2
            exact absurd h2 (by simp)
        rw [Nat.testBit_xor, hInv.2.2.1 i hi hz j hj, hmin j (by omega)]
        rfl
      · rw [if_neg h2] at hnz ⊢
        exact hInv.2.2.1 i hi hnz j hj
  · intro c j hc hj hnzc hjc
    rw [hrow j hj]
    by_cases hcp : c = countr_zero (r ^^^ m.row_sum r)
    · subst hcp
      rw [if_neg hjc]
      by_cases h2 : (m.row j).testBit (countr_zero (r ^^^ m.row_sum r)) = true
      · rw [if_pos h2, Nat.testBit_xor, h2, hbit]
        rfl
      · rw [if_neg h2]
        rw [Bool.not_eq_true] at h2
        exact h2
    · have hnzc' : m.row c ≠ 0 := by
        rw [← push_row_nonzero_iff m hInv r hr hne c hc hcp]
        exact hnzc
      by_cases hjp : j = countr_zero (r ^^^ m.row_sum r)
      · rw [if_pos hjp]
        exact hpiv c hc hnzc'
      · rw [if_neg hjp]
        by_cases h2 : (m.row j).testBit (countr_zero (r ^^^ m.row_sum r)) = true
        · rw [if_pos h2, Nat.testBit_xor, hInv.2.2.2 c j hc hj hnzc' hjc,
            hpiv c hc hnzc']
          rfl
        · rw [if_neg h2]
          exact hInv.2.2.2 c j hc hj hnzc' hjc

end semicanonical_b32x32

namespace semicanonical_b32x32

theorem push_row_true_rank (m : semicanonical_b32x32) (hInv : Inv m) (r : Nat)
    (hr : r < U32) (hne : r ^^^ m.row_sum r ≠ 0) :
    mrank (m.push_row r).2 = mrank m + 1 := by
  obtain ⟨hlt, hp, hbit, hmin, hpiv, hp0⟩ := push_prelim m hInv r hr hne
  unfold mrank
  have hset : (Finset.range 32).filter (fun i => (m.push_row r).2.row i ≠ 0) =
      insert (countr_zero (r ^^^ m.row_sum r))
        ((Finset.range 32).filter (fun i => m.row i ≠ 0)) := by
    ext i
    simp only [Finset.mem_filter, Finset.mem_insert, Finset.mem_range]
    constructor
    · rintro ⟨hi, hnz⟩
      by_cases hip : i = countr_zero (r ^^^ m.row_sum r)
      · exact Or.inl hip
      · exact Or.inr ⟨hi, (push_row_nonzero_iff m hInv r hr hne i hi hip).mp hnz⟩
    · rintro (hip | ⟨hi, hnz⟩)
      · subst hip
        refine ⟨hp, ?_⟩
        rw [push_row_row m r hne hp _ hp, if_pos rfl]
        exact hne
      · by_cases hip : i = countr_zero (r ^^^ m.row_sum r)
        · subst hip
          exact absurd hp0 hnz
        · exact ⟨hi, (push_row_nonzero_iff m hInv r hr hne i hi hip).mpr hnz⟩
  have hnotmem : countr_zero (r ^^^ m.row_sum r) ∉
      (Finset.range 32).filter (fun i => m.row i ≠ 0) := by
    intro hmem
    rw [Finset.mem_filter] at hmem
    exact hmem.2 hp0
  rw [hset, Finset.card_insert_of_not_mem hnotmem]

theorem inSpan_xor (m : semicanonical_b32x32) (v1 v2 : Nat) (h1 : m.inSpan v1)
    (h2 : m.inSpan v2) : m.inSpan (v1 ^^^ v2) := by
  obtain ⟨s1, hs1, rfl⟩ := h1
  obtain ⟨s2, hs2, rfl⟩ := h2
  exact ⟨s1 ^^^ s2, xor_lt_U32 _ _ hs1 hs2, row_sum_linear m s1 s2⟩

theorem push_row_sum_cases (m : semicanonical_b32x32) (hInv : Inv m) (r : Nat)
    (hr : r < U32) (hne : r ^^^ m.row_sum r ≠ 0) (s : Nat) :
    (m.push_row r).2.row_sum s = m.row_sum s ∨
    (m.push_row r).2.row_sum s = m.row_sum s ^^^ (r ^^^ m.row_sum r) := by
  obtain ⟨hlt, hp, hbit, hmin, hpiv, hp0⟩ := push_prelim m hInv r hr hne
  have hd : ∀ i, i < 32 → (m.push_row r).2.row i = m.row i ^^^
      (if (if i = countr_zero (r ^^^ m.row_sum r) then true
        else (m.row i).testBit (countr_zero (r ^^^ m.row_sum r)))
        then r ^^^ m.row_sum r else 0) := by
    intro i hi
    rw [push_row_row m r hne hp i hi]
    by_cases h1 : i = countr_zero (r ^^^ m.row_sum r)
    · rw [if_pos h1, if_pos (by rw [h1]; exact if_pos rfl)]
      rw [h1, hp0, Nat.zero_xor]
    · rw [if_neg h1]
      by_cases h2 : (m.row i).testBit (countr_zero (r ^^^ m.row_sum r)) = true
      · rw [if_pos h2, if_pos (by rw [if_neg h1]; exact h2)]
      · rw [if_neg h2, if_neg (by rw [if_neg h1]; exact h2), Nat.xor_zero]
  have hsplit : (m.push_row r).2.row_sum s = m.row_sum s ^^^
      xorSum (fun i => if (s.testBit i &&
        (if i = countr_zero (r ^^^ m.row_sum r) then true
          else (m.row i).testBit (countr_zero (r ^^^ m.row_sum r))))
        then r ^^^ m.row_sum r else 0) 32 := by
    rw [row_sum_eq_xorSum, row_sum_eq_xorSum, ← xorSum_xor]
    apply xorSum_congr
    intro i hi
    by_cases hs : s.testBit i = true
    · rw [if_pos hs, hd i hi, hs]
      by_cases h1 : (if i = countr_zero (r ^^^ m.row_sum r) then true
          else (m.row i).testBit (countr_zero (r ^^^ m.row_sum r))) = true
      · rw [h1]
        simp
      · rw [Bool.not_eq_true] at h1
        rw [h1]
        simp
    · rw [Bool.not_eq_true] at hs
      rw [hs, if_neg (by simp), if_neg (by simp), Nat.zero_xor]
      simp
  rw [hsplit]
  rw [xorSum_two_valued]
  by_cases hb : bXorSum (fun i => s.testBit i &&
      (if i = countr_zero (r ^^^ m.row_sum r) then true
        else (m.row i).testBit (countr_zero (r ^^^ m.row_sum r)))) 32 = true
  · rw [hb]
    right
    rfl
  · rw [Bool.not_eq_true] at hb
    rw [hb]
    left
    exact Nat.xor_zero _

theorem push_row_span_mono (m : semicanonical_b32x32) (hInv : Inv m) (r : Nat)
    (hr : r < U32) (hne : r ^^^ m.row_sum r ≠ 0) (v : Nat) (hv : m.inSpan v) :
    (m.push_row r).2.inSpan v := by
  obtain ⟨hlt, hp, hbit, hmin, hpiv, hp0⟩ := push_prelim m hInv r hr hne
  have hred : (m.push_row r).2.inSpan (r ^^^ m.row_sum r) := by
    refine ⟨2 ^ countr_zero (r ^^^ m.row_sum r), ?_, ?_⟩
    · have hpow : (2 : Nat) ^ countr_zero (r ^^^ m.row_sum r) < 2 ^ 32 :=
        Nat.pow_lt_pow_right (by norm_num) hp
      have hU : U32 = 2 ^ 32 := by rw [U32]; norm_num
      rw [hU]
      exact hpow
    · rw [row_sum_two_pow _ _ hp, push_row_row m r hne hp _ hp, if_pos rfl]
  obtain ⟨s, hs, rfl⟩ := hv
  rcases push_row_sum_cases m hInv r hr hne s with hcase | hcase
  · exact ⟨s, hs, hcase⟩
  · have h1 : (m.push_row r).2.inSpan ((m.push_row r).2.row_sum s) :=
      ⟨s, hs, rfl⟩
    have h2 := inSpan_xor _ _ _ h1 hred
    rw [hcase, Nat.xor_assoc, Nat.xor_self, Nat.xor_zero] at h2
    exact h2

theorem push_row_true_span (m : semicanonical_b32x32) (hInv : Inv m) (r : Nat)
    (hr : r < U32) (hne : r ^^^ m.row_sum r ≠ 0) (v : Nat) :
    ((m.push_row r).2.inSpan v ↔ (m.inSpan v ∨ m.inSpan (v ^^^ r))) := by
  obtain ⟨hlt, hp, hbit, hmin, hpiv, hp0⟩ := push_prelim m hInv r hr hne
  constructor
  · rintro ⟨s, hs, rfl⟩
    rcases push_row_sum_cases m hInv r hr hne s with hcase | hcase
    · rw [hcase]
      exact Or.inl ⟨s, hs, rfl⟩
    · rw [hcase]
      right
      have hrs : m.inSpan (m.row_sum s) := ⟨s, hs, rfl⟩
      have hrr : m.inSpan (m.row_sum r) := ⟨r, hr, rfl⟩
      have := inSpan_xor _ _ _ hrs hrr
      have heq : m.row_sum s ^^^ (r ^^^ m.row_sum r) ^^^ r =
          m.row_sum s ^^^ m.row_sum r := by
        rw [Nat.xor_assoc, Nat.xor_assoc]
        congr 1
        rw [Nat.xor_comm (m.row_sum r) r, ← Nat.xor_assoc, Nat.xor_self, Nat.zero_xor]
      rw [heq]
      exact this
  · rintro (hv | hv)
    · exact push_row_span_mono m hInv r hr hne v hv
    · have h1 : (m.push_row r).2.inSpan (v ^^^ r) :=
        push_row_span_mono m hInv r hr hne _ hv
      have hred : (m.push_row r).2.inSpan (r ^^^ m.row_sum r) := by
        refine ⟨2 ^ countr_zero (r ^^^ m.row_sum r), ?_, ?_⟩
        · have : (2 : Nat) ^ countr_zero (r ^^^ m.row_sum r) < 2 ^ 32 :=
            Nat.pow_lt_pow_right (by norm_num) hp
          rw [U32]
          norm_num
          omega
        · rw [row_sum_two_pow _ _ hp, push_row_row m r hne hp _ hp, if_pos rfl]
      have hrs : (m.push_row r).2.inSpan (m.row_sum r) :=
        push_row_span_mono m hInv r hr hne _ ⟨r, hr, rfl⟩
      have h2 := inSpan_xor _ _ _ (inSpan_xor _ _ _ h1 hred) hrs
      have heq : v ^^^ r ^^^ (r ^^^ m.row_sum r) ^^^ m.row_sum r = v := by
        rw [Nat.xor_assoc, Nat.xor_assoc, Nat.xor_assoc]
        rw [← Nat.xor_assoc r r, Nat.xor_self, Nat.zero_xor, Nat.xor_self,
          Nat.xor_zero]
      rw [heq] at h2
      exact h2

end semicanonical_b32x32

namespace semicanonical_b32x32

theorem push_row_Inv (m : semicanonical_b32x32) (hInv : Inv m) (r : Nat) (hr : r < U32) :
    Inv (m.push_row r).2 := by
  by_cases h : r ^^^ m.row_sum r = 0
  · rw [push_row_of_reduce_zero m r h]
    exact hInv
  · exact push_row_true_Inv m hInv r hr h

theorem push_row_rank (m : semicanonical_b32x32) (hInv : Inv m) (r : Nat) (hr : r < U32) :
    mrank (m.push_row r).2 = mrank m + (if (m.push_row r).1 then 1 else 0) := by
  by_cases h : r ^^^ m.row_sum r = 0
  · rw [push_row_of_reduce_zero m r h]
    rfl
  · rw [push_row_true_rank m hInv r hr h, push_row_fst m r h]
    rfl

theorem push_row_fst_iff (m : semicanonical_b32x32) (r : Nat) :
    (m.push_row r).1 = true ↔ r ^^^ m.row_sum r ≠ 0 := by
  constructor
  · intro h hred
    rw [push_row_of_reduce_zero m r hred] at h
    exact Bool.false_ne_true h
  · exact push_row_fst m r

/-- The matrix obtained by pushing the rows of `l`, in order, into the zero
matrix. -/
def pushAll (l : List Nat) : semicanonical_b32x32 :=
  l.foldl (fun m r => (m.push_row r).2) zero

theorem Inv_foldl :
    ∀ (l : List Nat) (m : semicanonical_b32x32), Inv m → (∀ x ∈ l, x < U32) →
      Inv (l.foldl (fun m r => (m.push_row r).2) m) := by
  intro l
  induction l with
  | nil => intro m hm _; exact hm
  | cons a t ih =>
    intro m hm hl
    rw [List.foldl_cons]
    exact ih _ (push_row_Inv m hm a (hl a (by simp))) (fun x hx => hl x (by simp [hx]))

theorem Inv_pushAll (l : List Nat) (h : ∀ x ∈ l, x < U32) : Inv (pushAll l) :=
  Inv_foldl l zero Inv_zero h

/-- The claim-facing semi-canonical-form predicate: every non-zero row has its
lowest set bit at its own index, and every pivot column holds exactly one set
bit, in its pivot row. -/
def SemiCanonicalForm (m : semicanonical_b32x32) : Prop :=
  ∀ i, i < 32 → m.row i ≠ 0 →
    (m.row i).testBit i = true ∧ (∀ j, j < i → (m.row i).testBit j = false) ∧
    (∀ j, j < 32 → j ≠ i → (m.row j).testBit i = false)

theorem SemiCanonicalForm_of_Inv (m : semicanonical_b32x32) (hInv : Inv m) :
    SemiCanonicalForm m :=
  fun i hi hnz =>
    ⟨hInv.2.1 i hi hnz, hInv.2.2.1 i hi hnz,
      fun j hj hji => hInv.2.2.2 i j hi hj hnz hji⟩

end semicanonical_b32x32

/-- OR of `f 0, ..., f (n-1)`, as accumulated by the read-out loop of
`solve_parities`. -/
def orSum (f : Nat → Nat) (n : Nat) : Nat :=
  (List.range n).foldl (fun a i => a ||| f i) 0

/-- Boolean OR of `f 0, ..., f (n-1)`. -/
def bOrSum (f : Nat → Bool) (n : Nat) : Bool :=
  (List.range n).foldl (fun a i => a || f i) false

theorem orSum_succ (f : Nat → Nat) (n : Nat) : orSum f (n + 1) = orSum f n ||| f n := by
  unfold orSum
  rw [List.range_succ, List.foldl_append]
  rfl

theorem bOrSum_succ (f : Nat → Bool) (n : Nat) :
    bOrSum f (n + 1) = (bOrSum f n || f n) := by
  unfold bOrSum
  rw [List.range_succ, List.foldl_append]
  rfl

theorem testBit_orSum (f : Nat → Nat) (n b : Nat) :
    (orSum f n).testBit b = bOrSum (fun i => (f i).testBit b) n := by
  induction n with
  | zero => simp [orSum, bOrSum]
  | succ n ih =>
    rw [orSum_succ, bOrSum_succ, Nat.testBit_or, ih]

theorem bOrSum_false_fn (f : Nat → Bool) (n : Nat) (h : ∀ i, i < n → f i = false) :
    bOrSum f n = false := by
  induction n with
  | zero => rfl
  | succ n ih =>
    rw [bOrSum_succ, ih (fun i hi => h i (by omega)), h n (by omega)]
    rfl

theorem bOrSum_single (f : Nat → Bool) (n k : Nat) (hk : k < n)
    (h : ∀ i, i < n → i ≠ k → f i = false) : bOrSum f n = f k := by
  induction n with
  | zero => omega
  | succ n ih =>
    rw [bOrSum_succ]
    by_cases hkn : k = n
    · subst hkn
      rw [bOrSum_false_fn _ _ (fun i hi => h i (by omega) (by omega))]
      simp
    · rw [ih (by omega) (fun i hi hik => h i (by omega) hik), h n (by omega) (Ne.symm hkn)]
      simp

namespace semicanonical_b32x32

/-- If every row of the matrix is orthogonal to `w` over GF(2), then so is any
span element. -/
theorem row_sum_sat (m : semicanonical_b32x32) (w : Nat)
    (h : ∀ i, i < 32 → dotp (m.row i) w = 0) (s : Nat) : dotp (m.row_sum s) w = 0 := by
  rw [row_sum_eq_xorSum, dotp_xorSum]
  have hz : (Finset.range 32).sum (fun i => dotp (if s.testBit i then m.row i else 0) w) = 0 := by
    apply Finset.sum_eq_zero
    intro i hi
    rw [Finset.mem_range] at hi
    by_cases hs2 : s.testBit i = true
    · rw [if_pos hs2]
      exact h i hi
    · rw [if_neg hs2]
      exact dotp_zero w
  rw [hz]

/-- A successful or failed `push_row` with a row orthogonal to `w` preserves
orthogonality of every matrix row to `w`. -/
theorem push_row_sat (m : semicanonical_b32x32) (hInv : Inv m) (w r : Nat) (hr : r < U32)
    (hsat : ∀ i, i < 32 → dotp (m.row i) w = 0) (hrw : dotp r w = 0) :
    ∀ i, i < 32 → dotp ((m.push_row r).2.row i) w = 0 := by
  by_cases h : r ^^^ m.row_sum r = 0
  · rw [push_row_of_reduce_zero m r h]
    exact hsat
  · obtain ⟨hlt, hp, hbit, hmin, hpiv, hp0⟩ := push_prelim m hInv r hr h
    have hredsat : dotp (r ^^^ m.row_sum r) w = 0 := by
      rw [dotp_xor, hrw, row_sum_sat m w hsat r]
    intro i hi
    rw [push_row_row m r h hp i hi]
    by_cases h1 : i = countr_zero (r ^^^ m.row_sum r)
    · rw [if_pos h1]
      exact hredsat
    · rw [if_neg h1]
      by_cases h2 : (m.row i).testBit (countr_zero (r ^^^ m.row_sum r)) = true
      · rw [if_pos h2, dotp_xor, hsat i hi, hredsat]
      · rw [if_neg h2]
        exact hsat i hi

/-- At full rank, under the invariant and orthogonality to an augmented vector
`w` with bit 31 set, row 31 is zero, every row below 31 is non-zero and equals
`2^i` plus possibly the constant column bit, and that constant bit encodes
`w`'s bit `i`. -/
theorem full_rank_rows (m : semicanonical_b32x32) (hInv : Inv m) (w : Nat)
    (hw31 : w.testBit 31 = true) (hsat : ∀ i, i < 32 → dotp (m.row i) w = 0)
    (hrank : mrank m = 31) :
    m.row 31 = 0 ∧
    (∀ i, i < 31 → m.row i ≠ 0 ∧
      ((m.row i).testBit 31 = true → m.row i = 2 ^ i ^^^ 2 ^ 31) ∧
      ((m.row i).testBit 31 = false → m.row i = 2 ^ i) ∧
      w.testBit i = (m.row i).testBit 31) := by
  have hrow31 : m.row 31 = 0 := by
    by_contra hnz
    have hlow : ∀ j, j < 31 → (m.row 31).testBit j = false :=
      fun j hj => hInv.2.2.1 31 (by omega) hnz j hj
    have hhigh : ∀ j, 32 ≤ j → (m.row 31).testBit j = false := by
      intro j hj
      have hb := hInv.1 31 (by omega)
      rw [U32] at hb
      have h1 : m.row 31 < 2 ^ 32 := by norm_num at hb ⊢; omega
      exact Nat.testBit_lt_two_pow (lt_of_lt_of_le h1 (Nat.pow_le_pow_right (by norm_num) hj))
    have h31 : (m.row 31).testBit 31 = true := hInv.2.1 31 (by omega) hnz
    have heq : m.row 31 = 2 ^ 31 := by
      apply Nat.eq_of_testBit_eq
      intro j
      rcases lt_trichotomy j 31 with hj | hj | hj
      · rw [hlow j hj, Nat.testBit_two_pow]
        simp
        omega
      · subst hj
        rw [h31, Nat.testBit_two_pow]
        simp
      · rw [hhigh j (by omega), Nat.testBit_two_pow]
        simp
        omega
    have hs := hsat 31 (by omega)
    rw [heq, dotp_two_pow 31 w (by omega), hw31] at hs
    simp at hs
  refine ⟨hrow31, ?_⟩
  have hfull : ∀ i, i < 31 → m.row i ≠ 0 := by
    intro i hi31
    have hsub : (Finset.range 32).filter (fun j => m.row j ≠ 0) ⊆
        (Finset.range 32).erase 31 := by
      intro j hj
      rw [Finset.mem_filter] at hj
      rw [Finset.mem_erase]
      refine ⟨?_, hj.1⟩
      intro hj31
      rw [hj31] at hj
      exact hj.2 hrow31
    have hcard : ((Finset.range 32).erase 31).card = 31 := by
      rw [Finset.card_erase_of_mem (by simp)]
      simp
    have heq : (Finset.range 32).filter (fun j => m.row j ≠ 0) =
        (Finset.range 32).erase 31 := by
      apply Finset.eq_of_subset_of_card_le hsub
      rw [hcard]
      unfold mrank at hrank
      omega
    have : i ∈ (Finset.range 32).erase 31 := by
      rw [Finset.mem_erase]
      exact ⟨by omega, by simp; omega⟩
    rw [← heq, Finset.mem_filter] at this
    exact this.2
  intro i hi
  have hnz := hfull i hi
  have hshape : ∀ j, j ≠ i → j ≠ 31 → (m.row i).testBit j = false := by
    intro j hji hj31
    rcases lt_or_ge j 32 with hj32 | hj32
    · rcases lt_or_ge j 31 with hj31' | hj31'
      · exact hInv.2.2.2 j i (by omega) (by omega) (hfull j hj31') (Ne.symm hji)
      · omega
    · have hb := hInv.1 i (by omega)
      rw [U32] at hb
      have h1 : m.row i < 2 ^ 32 := by norm_num at hb ⊢; omega
      exact Nat.testBit_lt_two_pow (lt_of_lt_of_le h1 (Nat.pow_le_pow_right (by norm_num) hj32))
  have hbi : (m.row i).testBit i = true := hInv.2.1 i (by omega) hnz
  refine ⟨hnz, ?_, ?_, ?_⟩
  · intro h31
    apply Nat.eq_of_testBit_eq
    intro j
    rw [Nat.testBit_xor, Nat.testBit_two_pow, Nat.testBit_two_pow]
    by_cases hji : j = i
    · subst hji
      rw [hbi]
      simp
      omega
    · by_cases hj31 : j = 31
      · subst hj31
        rw [h31]
        simp
        omega
      · rw [hshape j hji hj31]
        simp [Ne.symm hji, Ne.symm hj31]
  · intro h31
    apply Nat.eq_of_testBit_eq
    intro j
    rw [Nat.testBit_two_pow]
    by_cases hji : j = i
    · subst hji
      rw [hbi]
      simp
    · by_cases hj31 : j = 31
      · subst hj31
        rw [h31]
        simp
        omega
      · rw [hshape j hji hj31]
        simp [Ne.symm hji]
  · have hs := hsat i (by omega)
    by_cases h31 : (m.row i).testBit 31 = true
    · have heq : m.row i = 2 ^ i ^^^ 2 ^ 31 := by
        apply Nat.eq_of_testBit_eq
        intro j
        rw [Nat.testBit_xor, Nat.testBit_two_pow, Nat.testBit_two_pow]
        by_cases hji : j = i
        · subst hji
          rw [hbi]
          simp
          omega
        · by_cases hj31 : j = 31
          · subst hj31
            rw [h31]
            simp
            omega
          · rw [hshape j hji hj31]
            simp [Ne.symm hji, Ne.symm hj31]
      rw [heq, dotp_xor, dotp_two_pow i w (by omega), dotp_two_pow 31 w (by omega),
        hw31] at hs
      rw [h31]
      by_cases hwi : w.testBit i = true
      · exact hwi
      · rw [Bool.not_eq_true] at hwi
        rw [hwi] at hs
        simp at hs
    · rw [Bool.not_eq_true] at h31
      have heq : m.row i = 2 ^ i := by
        apply Nat.eq_of_testBit_eq
        intro j
        rw [Nat.testBit_two_pow]
        by_cases hji : j = i
        · subst hji
          rw [hbi]
          simp
        · by_cases hj31 : j = 31
          · subst hj31
            rw [h31]
            simp
            omega
          · rw [hshape j hji hj31]
            simp [Ne.symm hji]
      rw [heq, dotp_two_pow i w (by omega)] at hs
      rw [h31]
      by_cases hwi : w.testBit i = true
      · rw [hwi] at hs
        simp at hs
      · rw [Bool.not_eq_true] at hwi
        exact hwi

end semicanonical_b32x32

/-! The solver of solver.hpp. -/

/-- The anonymous `equations` aggregate nested in the solver: the running rank
and the semi-canonical matrix. -/
structure solver_equations where
  rank : Nat
  matrix : semicanonical_b32x32

/-- Member `equations.push`: sets bit 31 of `coefficients` to the equation's
right-hand side, pushes the row, accumulates the outcome into `rank`, and
reports whether the rank just reached 31. -/
def eq_push (e : solver_equations) (coefficients : Nat) (par : Bool) :
    Bool × solver_equations :=
  let c := coefficients ||| (if par then (1 <<< 31) else 0)
  let res := e.matrix.push_row c
  let rank := e.rank + (if res.1 then 1 else 0)
  (rank == 31, ⟨rank, res.2⟩)

/-- The solver state: the window of recent outputs, the window of symbolic
parity vectors, and the accumulated equations. -/
structure solver where
  history : cyclic_fixed_queue Nat 31
  parity : cyclic_fixed_queue Nat 31
  equations : solver_equations

/-- The solver constructor: parity seeded with the unit vectors, mirrored
through the three copy steps and the 310-step warm-up; empty history; zero
equations. -/
def solver_init : solver :=
  let p0 := (List.range 31).foldl (fun q i => q.push (1 <<< i))
    (cyclic_fixed_queue.empty : cyclic_fixed_queue Nat 31)
  let p1 := (fun q : cyclic_fixed_queue Nat 31 => q.pop_and_push q.front)^[3] p0
  let p2 := (fun q : cyclic_fixed_queue Nat 31 =>
    q.pop_and_push (q.rel (-3) ^^^ q.rel (-31)))^[310] p1
  ⟨cyclic_fixed_queue.empty, p2, ⟨0, semicanonical_b32x32.zero⟩⟩

/-- A queue populated by pushing the elements of `l` in order. -/
def cfq_from_list {T : Type} [Inhabited T] {C : Nat} (l : List T) :
    cyclic_fixed_queue T C :=
  l.foldl (fun q v => q.push v) cyclic_fixed_queue.empty

/-- `solver::solve_parities`: reads the initial parities off the full-rank
matrix (bit 31 of row `i` is the value of unknown `i`), then recombines each
symbolic parity vector with them to obtain the current parities, oldest in the
least significant bit. -/
def solve_parities (s : solver) : Nat :=
  let initial_state := orSum (fun i => ((s.equations.matrix.row i) >>> 31) <<< i) 32
  (s.parity.toList.foldl
    (fun (acc : Nat × Nat) coefficients =>
      (acc.1 ||| ((popcount (coefficients &&& initial_state) % 2) <<< acc.2), acc.2 + 1))
    (0, 0)).1

/-- `solver::solve`: rebuilds the 31-word state table by shifting each
recorded output left one bit and installing the recovered parity bit, walking
the history window in logical order. -/
def solve (s : solver) : reference_generator.table_type :=
  let parity_bits := solve_parities s
  cfq_from_list ((List.range s.history.size_).map (fun k =>
    (((s.history.toList.getD k 0) <<< 1) % U32) ||| ((parity_bits >>> k) &&& 1)))

/-- `solver::feed`. -/
def feed (s : solver) (value : Nat) :
    Option reference_generator.table_type × solver :=
  if s.history.size_ < 31 then
    (none, ⟨s.history.push value,
      s.parity.pop_and_push (s.parity.rel (-3) ^^^ s.parity.rel (-31)), s.equations⟩)
  else
    let o31 := s.history.rel (-31)
    let o3 := s.history.rel (-3)
    let q31 := s.parity.rel (-31)
    let q3 := s.parity.rel (-3)
    let q0 := q31 ^^^ q3
    let history := s.history.pop_and_push value
    let parity := s.parity.pop_and_push q0
    let expected := ((o31 + o3) % U32) % U31
    if value ≠ expected then
      let r1 := eq_push s.equations q31 true
      if r1.1 then
        let s2 : solver := ⟨history, parity, r1.2⟩
        (some (solve s2), s2)
      else
        let r2 := eq_push r1.2 q3 true
        let s2 : solver := ⟨history, parity, r2.2⟩
        if r2.1 then (some (solve s2), s2) else (none, s2)
    else (none, ⟨history, parity, s.equations⟩)

/-- Feed a list of values in order, keeping only the final state. -/
def feedAll (s : solver) (l : List Nat) : solver :=
  l.foldl (fun s v => (feed s v).2) s

/-- One step of the test harness loop of test_solver.cpp: the source generator
produces one output, which is fed to the solver. -/
def sim_step (p : solver × reference_generator.table_type) :
    Option reference_generator.table_type × (solver × reference_generator.table_type) :=
  let value := reference_generator.advance_out p.2
  let g := reference_generator.advance_state p.2
  let r := feed p.1 value
  (r.1, (r.2, g))

/-- The harness state after `n` completed feeds, starting from a fresh solver
and a generator seeded with `seed`. -/
def sim (seed n : Nat) : solver × reference_generator.table_type :=
  (fun p => (sim_step p).2)^[n] (solver_init, reference_generator.from_seed seed)

/-- The value returned by feed number `n+1` (0-based `n`). -/
def sim_result (seed n : Nat) : Option reference_generator.table_type :=
  (sim_step (sim seed n)).1

/-- The initial-parity word of the seeded generator: bit `i` is the parity of
the `i`-th word of the seed-expansion table. -/
def pstar (seed : Nat) : Nat := orSum (fun i => (spec_seed_word seed i % 2) <<< i) 31

/-- The augmented vector satisfied by every recorded equation: the initial
parities together with the constant-1 coefficient in bit 31. -/
def wstar (seed : Nat) : Nat := pstar seed ||| (1 <<< 31)

/-! Numeric facts about the seeded table and the augmented parity vector. -/

/-- The seeding-loop arithmetic always produces a value below `2147483647`,
for any operand. -/
theorem seed_step_lt (t : Nat) :
    (if (16807 * toInt32 t).tmod 2147483647 < 0
      then (16807 * toInt32 t).tmod 2147483647 + 2147483647
      else (16807 * toInt32 t).tmod 2147483647).toNat < 2147483647 := by
  have hub : (16807 * toInt32 t).tmod 2147483647 < 2147483647 :=
    Int.tmod_lt_of_pos _ (by norm_num)
  have hlb : -2147483647 < (16807 * toInt32 t).tmod 2147483647 := by
    cases hx : (16807 * toInt32 t) with
    | ofNat m =>
      have hre : (Int.ofNat m).tmod 2147483647 = Int.ofNat (m % 2147483647) := rfl
      rw [hre, Int.ofNat_eq_natCast]
      have := Nat.mod_lt m (show 0 < 2147483647 by norm_num)
      omega
    | negSucc m =>
      have hre : (Int.negSucc m).tmod 2147483647 = -Int.ofNat ((m + 1) % 2147483647) := rfl
      rw [hre, Int.ofNat_eq_natCast]
      have := Nat.mod_lt (m + 1) (show 0 < 2147483647 by norm_num)
      omega
  by_cases h : (16807 * toInt32 t).tmod 2147483647 < 0
  · rw [if_pos h]
    omega
  · rw [if_neg h]
    omega

theorem spec_seed_word_lt (s : Nat) (hs : s < U32) :
    ∀ i, spec_seed_word s i < U32 := by
  intro i
  cases i with
  | zero => exact hs
  | succ i =>
    have hb : spec_seed_word s (i + 1) < 2147483647 := seed_step_lt (spec_seed_word s i)
    rw [U32]
    omega

/-- Every element of the evolving spec-level window is a 32-bit value. -/
theorem spec_window_lt (seed : Nat) (hseed : seed < U32) :
    ∀ m, ∀ x ∈ spec_advance^[m] (spec_rotate^[3] (spec_initial_list seed)), x < U32 := by
  have hbase : ∀ x ∈ spec_rotate^[3] (spec_initial_list seed), x < U32 := by
    have hin : ∀ x ∈ spec_initial_list seed, x < U32 := by
      intro x hx
      rw [spec_initial_list, List.mem_map] at hx
      obtain ⟨i, _, rfl⟩ := hx
      exact spec_seed_word_lt seed hseed i
    have hrot : ∀ (l : List Nat), (∀ x ∈ l, x < U32) → ∀ x ∈ spec_rotate l, x < U32 := by
      intro l hl x hx
      rw [spec_rotate, List.mem_append] at hx
      rcases hx with hx | hx
      · exact hl x (List.mem_of_mem_tail hx)
      · rw [List.mem_singleton] at hx
        subst hx
        rcases Nat.lt_or_ge 0 l.length with hlen | hlen
        · have hmem : l.getD 0 0 ∈ l := by
            rw [List.getD_eq_getElem l 0 hlen]
            exact l.getElem_mem hlen
          exact hl _ hmem
        · have hnil : l = [] := List.eq_nil_of_length_eq_zero (by omega)
          rw [hnil]
          simp [U32]
    exact hrot _ (hrot _ (hrot _ hin))
  intro m
  induction m with
  | zero => exact hbase
  | succ m ih =>
    rw [Function.iterate_succ_apply']
    intro x hx
    rw [spec_advance, List.mem_append] at hx
    rcases hx with hx | hx
    · exact ih x (List.mem_of_mem_tail hx)
    · rw [List.mem_singleton] at hx
      subst hx
      have hU : 0 < U32 := by rw [U32]; norm_num
      exact Nat.mod_lt _ hU

/-- Every element of the generator's table, at every stage, is a 32-bit
value. -/
theorem gen_elements_lt (seed : Nat) (hseed : seed < U32) (m : Nat) :
    ∀ x ∈ (reference_generator.advance_state^[m]
      (reference_generator.table_from_seed seed)).toList, x < U32 := by
  obtain ⟨hsz, hf, hl⟩ := reference_generator.table_from_seed_toList seed
  obtain ⟨h1, h2⟩ := reference_generator.toList_iterate_advance _ hsz m
  rw [h1, hl]
  exact spec_window_lt seed hseed m

theorem testBit_bit_shift (b i j : Nat) (hb : b < 2) :
    (b <<< j).testBit i = (decide (i = j) && decide (b = 1)) := by
  rw [Nat.testBit_shiftLeft]
  by_cases hji : j ≤ i
  · rw [decide_eq_true hji, Bool.true_and]
    by_cases hij : i = j
    · subst hij
      rw [Nat.sub_self]
      rw [Nat.testBit_zero]
      rcases (by omega : b = 0 ∨ b = 1) with hb0 | hb1
      · subst hb0
        simp
      · subst hb1
        simp
    · have hpos : 0 < i - j := by omega
      have : b.testBit (i - j) = false := by
        apply Nat.testBit_lt_two_pow
        calc b < 2 := hb
        _ = 2 ^ 1 := by norm_num
        _ ≤ 2 ^ (i - j) := Nat.pow_le_pow_right (by norm_num) (by omega)
      rw [this]
      simp [hij]
  · rw [decide_eq_false hji, Bool.false_and]
    have : i ≠ j := by omega
    simp [this]

theorem pstar_lt (seed : Nat) : pstar seed < U31 := by
  unfold pstar
  have hU : U31 = 2 ^ 31 := by rw [U31]; norm_num
  rw [hU]
  have : ∀ f : Nat → Nat, (∀ i, i < 31 → f i < 2 ^ 31) → orSum f 31 < 2 ^ 31 := by
    intro f
    have hgen : ∀ n, (∀ i, i < n → f i < 2 ^ 31) → orSum f n < 2 ^ 31 := by
      intro n
      induction n with
      | zero => intro _; simp [orSum]
      | succ n ih =>
        intro h
        rw [orSum_succ]
        exact Nat.or_lt_two_pow (ih (fun i hi => h i (by omega))) (h n (by omega))
    exact hgen 31
  apply this
  intro i hi
  have hb : spec_seed_word seed i % 2 < 2 := Nat.mod_lt _ (by norm_num)
  calc (spec_seed_word seed i % 2) <<< i = (spec_seed_word seed i % 2) * 2 ^ i := by
        rw [Nat.shiftLeft_eq]
  _ < 2 * 2 ^ i := by
        apply Nat.mul_lt_mul_right (Nat.pos_pow_of_pos i (by norm_num))
        |>.mpr hb
  _ = 2 ^ (i + 1) := by ring
  _ ≤ 2 ^ 31 := Nat.pow_le_pow_right (by norm_num) (by omega)

theorem pstar_testBit (seed i : Nat) (hi : i < 31) :
    (pstar seed).testBit i = decide (spec_seed_word seed i % 2 = 1) := by
  unfold pstar
  rw [testBit_orSum]
  rw [bOrSum_single _ 31 i hi]
  · rw [testBit_bit_shift _ _ _ (Nat.mod_lt _ (by norm_num))]
    simp
  · intro j hj hji
    rw [testBit_bit_shift _ _ _ (Nat.mod_lt _ (by norm_num))]
    simp [Ne.symm hji]

theorem wstar_testBit31 (seed : Nat) : (wstar seed).testBit 31 = true := by
  unfold wstar
  rw [Nat.testBit_or, Nat.one_shiftLeft, Nat.testBit_two_pow]
  simp

theorem wstar_testBit_lt (seed i : Nat) (hi : i < 31) :
    (wstar seed).testBit i = (pstar seed).testBit i := by
  unfold wstar
  rw [Nat.testBit_or, Nat.one_shiftLeft, Nat.testBit_two_pow]
  have : (31 : Nat) ≠ i := by omega
  simp [this]

theorem dotp_wstar_eq_pstar (seed q : Nat) (hq : q < U31) :
    dotp q (wstar seed) = dotp q (pstar seed) := by
  have h31 : U31 = 2 ^ 31 := by rw [U31]; norm_num
  have hand : q &&& wstar seed = q &&& pstar seed := by
    apply Nat.eq_of_testBit_eq
    intro j
    rw [Nat.testBit_and, Nat.testBit_and]
    rcases lt_trichotomy j 31 with hj | hj | hj
    · rw [wstar_testBit_lt seed j hj]
    · subst hj
      have hq31 : q.testBit 31 = false := by
        apply Nat.testBit_lt_two_pow
        rw [h31] at hq
        exact hq
      rw [hq31, Bool.false_and, Bool.false_and]
    · have hq' : q.testBit j = false := by
        apply Nat.testBit_lt_two_pow
        rw [h31] at hq
        exact lt_of_lt_of_le hq (Nat.pow_le_pow_right (by norm_num) (by omega))
      rw [hq', Bool.false_and, Bool.false_and]
  unfold dotp
  rw [hand]

theorem or31_eq_xor (q : Nat) (hq : q < U31) : q ||| (1 <<< 31) = q ^^^ 2 ^ 31 := by
  rw [Nat.one_shiftLeft]
  apply Nat.eq_of_testBit_eq
  intro j
  rw [Nat.testBit_or, Nat.testBit_xor, Nat.testBit_two_pow]
  by_cases hj : j = 31
  · subst hj
    have hq31 : q.testBit 31 = false := by
      apply Nat.testBit_lt_two_pow
      rw [U31] at hq
      norm_num
      omega
    rw [hq31]
    simp
  · simp [Ne.symm hj]

theorem eqrow_lt (q : Nat) (hq : q < U31) : q ||| (1 <<< 31) < U32 := by
  rw [or31_eq_xor q hq]
  have h31 : U31 = 2 ^ 31 := by rw [U31]; norm_num
  have h32 : U32 = 2 ^ 32 := by rw [U32]; norm_num
  rw [h31] at hq
  rw [h32]
  exact Nat.xor_lt_two_pow (lt_trans hq (by norm_num)) (by norm_num)

theorem eqrow_sat (seed q : Nat) (hq : q < U31) :
    dotp (q ||| (1 <<< 31)) (wstar seed) = (dotp q (wstar seed) + 1) % 2 := by
  rw [or31_eq_xor q hq, dotp_xor, dotp_two_pow 31 _ (by omega), wstar_testBit31]
  simp

theorem dotp_unit (seed i : Nat) (hi : i < 31) :
    dotp (1 <<< i) (wstar seed) = spec_seed_word seed i % 2 := by
  rw [Nat.one_shiftLeft, dotp_two_pow i _ (by omega), wstar_testBit_lt seed i hi,
    pstar_testBit seed i hi]
  rcases Nat.mod_two_eq_zero_or_one (spec_seed_word seed i) with h | h <;> simp [h]

theorem sum_parity (a b : Nat) : ((a + b) % U32) % 2 = (a % 2 + b % 2) % 2 := by
  rw [U32]
  omega

theorem carry_char (a b : Nat) (ha : a < U32) (hb : b < U32) :
    ((a + b) % U32) / 2 = (((a / 2 + b / 2) % U32) % U31 + (a % 2) * (b % 2)) % U31 := by
  rw [U32] at ha hb
  rw [U32, U31]
  rcases Nat.mod_two_eq_zero_or_one a with h1 | h1 <;>
    rcases Nat.mod_two_eq_zero_or_one b with h2 | h2 <;>
    rw [h1, h2] <;> omega

theorem carry_ne (a b : Nat) (ha : a < U32) (hb : b < U32) :
    (((a + b) % U32) / 2 ≠ ((a / 2 + b / 2) % U32) % U31) ↔ (a % 2 = 1 ∧ b % 2 = 1) := by
  rw [carry_char a b ha hb]
  rw [U32] at ha hb
  rw [U32, U31]
  rcases Nat.mod_two_eq_zero_or_one a with h1 | h1 <;>
    rcases Nat.mod_two_eq_zero_or_one b with h2 | h2 <;>
    rw [h1, h2] <;> simp <;> omega

/-- The list-level form of one parity-window advance
`parity.pop_and_push(parity(-3) XOR parity(-31))`. -/
def par_advance (l : List Nat) : List Nat :=
  l.tail ++ [l.getD (l.length - 3) 0 ^^^ l.getD (l.length - 31) 0]

theorem getD_tail {T : Type} (l : List T) (k : Nat) (d : T) :
    l.tail.getD k d = l.getD (k + 1) d := by
  cases l with
  | nil => rfl
  | cons a t => rfl

theorem toList_parity_step (q : cyclic_fixed_queue Nat 31) (h : q.size_ = 31) :
    (q.pop_and_push (q.rel (-3) ^^^ q.rel (-31))).toList = par_advance q.toList ∧
    (q.pop_and_push (q.rel (-3) ^^^ q.rel (-31))).size_ = 31 := by
  constructor
  · rw [cyclic_fixed_queue.toList_pop_and_push _ _ (by omega)]
    unfold par_advance
    congr 2
    rw [show (-3 : Int) = -((3 : Nat) : Int) by norm_num,
      show (-31 : Int) = -((31 : Nat) : Int) by norm_num,
      cyclic_fixed_queue.rel_neg _ 3 (by omega) (by omega),
      cyclic_fixed_queue.rel_neg _ 31 (by omega) (by omega),
      cyclic_fixed_queue.length_toList, h]
    rfl
  · rw [cyclic_fixed_queue.size_pop_and_push, h]

theorem toList_parity_iter (q : cyclic_fixed_queue Nat 31) (h : q.size_ = 31) (n : Nat) :
    ((fun r : cyclic_fixed_queue Nat 31 =>
      r.pop_and_push (r.rel (-3) ^^^ r.rel (-31)))^[n] q).toList = par_advance^[n] q.toList ∧
    ((fun r : cyclic_fixed_queue Nat 31 =>
      r.pop_and_push (r.rel (-3) ^^^ r.rel (-31)))^[n] q).size_ = 31 := by
  induction n with
  | zero => exact ⟨rfl, h⟩
  | succ n ih =>
    rw [Function.iterate_succ_apply', Function.iterate_succ_apply']
    obtain ⟨h1, h2⟩ := ih
    obtain ⟨h3, h4⟩ := toList_parity_step _ h2
    rw [h3, h1]
    exact ⟨rfl, h4⟩

theorem cfq_from_list_spec {T : Type} [Inhabited T] {C : Nat} :
    ∀ l : List T, l.length ≤ C →
      (cfq_from_list l : cyclic_fixed_queue T C).toList = l ∧
      (cfq_from_list l : cyclic_fixed_queue T C).front_ = 0 ∧
      (cfq_from_list l : cyclic_fixed_queue T C).size_ = l.length := by
  intro l
  induction l using List.reverseRecOn with
  | nil =>
    intro _
    refine ⟨?_, rfl, rfl⟩
    simp [cfq_from_list, cyclic_fixed_queue.toList, cyclic_fixed_queue.empty]
  | append_singleton l a ih =>
    intro hlen
    rw [List.length_append, List.length_singleton] at hlen
    obtain ⟨h1, h2, h3⟩ := ih (by omega)
    have hfold : (cfq_from_list (l ++ [a]) : cyclic_fixed_queue T C) =
        (cfq_from_list l : cyclic_fixed_queue T C).push a := by
      unfold cfq_from_list
      rw [List.foldl_append]
      rfl
    refine ⟨?_, ?_, ?_⟩
    · rw [hfold, cyclic_fixed_queue.toList_push _ _ (by omega), h1]
    · rw [hfold]
      show (cfq_from_list l : cyclic_fixed_queue T C).front_ = 0
      exact h2
    · rw [hfold]
      show (cfq_from_list l : cyclic_fixed_queue T C).size_ + 1 = _
      rw [h3, List.length_append, List.length_singleton]

theorem toList_rotate_iter (q : cyclic_fixed_queue Nat 31) (hsz : q.size_ = 31)
    (hf : q.front_ < 32) (j : Nat) :
    ((fun r : cyclic_fixed_queue Nat 31 => r.pop_and_push r.front)^[j] q).size_ = 31 ∧
    ((fun r : cyclic_fixed_queue Nat 31 => r.pop_and_push r.front)^[j] q).front_ < 32 ∧
    ((fun r : cyclic_fixed_queue Nat 31 => r.pop_and_push r.front)^[j] q).toList =
      spec_rotate^[j] q.toList := by
  induction j with
  | zero => exact ⟨hsz, hf, rfl⟩
  | succ j ih =>
    obtain ⟨h1, h2, h3⟩ := ih
    rw [Function.iterate_succ_apply', Function.iterate_succ_apply']
    set r := (fun r : cyclic_fixed_queue Nat 31 => r.pop_and_push r.front)^[j] q with hr
    refine ⟨?_, ?_, ?_⟩
    · simp [cyclic_fixed_queue.size_pop_and_push, h1]
    · simp [cyclic_fixed_queue.pop_and_push, cyclic_fixed_queue.push, cyclic_fixed_queue.pop]
      omega
    · rw [← h3]
      show (r.pop_and_push r.front).toList = spec_rotate r.toList
      rw [cyclic_fixed_queue.toList_pop_and_push _ _ (by omega),
        cyclic_fixed_queue.front_eq_toList _ (by omega) (by omega)]
      rfl

set_option maxRecDepth 4000 in
/-- The parity window installed by the solver constructor, in list form. -/
theorem solver_init_parity :
    solver_init.parity.toList =
      par_advance^[310] (spec_rotate^[3] ((List.range 31).map (fun i => 1 <<< i))) ∧
    solver_init.parity.size_ = 31 := by
  obtain ⟨hl0, hf0, hs0⟩ := cfq_from_list_spec (C := 31)
    ((List.range 31).map (fun i => (1 : Nat) <<< i)) (by simp)
  have hs0' : (cfq_from_list ((List.range 31).map (fun i => (1 : Nat) <<< i)) :
      cyclic_fixed_queue Nat 31).size_ = 31 := by
    rw [hs0]
    simp
  obtain ⟨hr1, hr2, hr3⟩ := toList_rotate_iter _ hs0' (by rw [hf0]; omega) 3
  rw [hl0] at hr3
  obtain ⟨hp1, hp2⟩ := toList_parity_iter
    ((fun r : cyclic_fixed_queue Nat 31 => r.pop_and_push r.front)^[3]
      (cfq_from_list ((List.range 31).map (fun i => (1 : Nat) <<< i)))) hr1 310
  rw [hr3] at hp1
  have hfold : ((List.range 31).foldl (fun q i => q.push (1 <<< i))
      (cyclic_fixed_queue.empty : cyclic_fixed_queue Nat 31)) =
      cfq_from_list ((List.range 31).map (fun i => (1 : Nat) <<< i)) := by
    unfold cfq_from_list
    rw [List.foldl_map]
  show ((fun q : cyclic_fixed_queue Nat 31 =>
      q.pop_and_push (q.rel (-3) ^^^ q.rel (-31)))^[310]
      ((fun r : cyclic_fixed_queue Nat 31 => r.pop_and_push r.front)^[3]
        ((List.range 31).foldl (fun q i => q.push (1 <<< i))
          cyclic_fixed_queue.empty))).toList = _ ∧
    ((fun q : cyclic_fixed_queue Nat 31 =>
      q.pop_and_push (q.rel (-3) ^^^ q.rel (-31)))^[310]
      ((fun r : cyclic_fixed_queue Nat 31 => r.pop_and_push r.front)^[3]
        ((List.range 31).foldl (fun q i => q.push (1 <<< i))
          cyclic_fixed_queue.empty))).size_ = 31
  rw [hfold]
  exact ⟨hp1, hp2⟩

/-- The correspondence between the solver's symbolic parity window and the
source generator's state window: pointwise, each coefficient vector is a
31-bit value whose GF(2) product with the augmented initial-parity vector is
the parity of the corresponding state word. -/
def ParRel (seed : Nat) (P L : List Nat) : Prop :=
  P.length = 31 ∧ L.length = 31 ∧
  ∀ k, k < 31 → P.getD k 0 < U31 ∧ dotp (P.getD k 0) (wstar seed) = (L.getD k 0) % 2

theorem ParRel_base (seed : Nat) :
    ParRel seed ((List.range 31).map (fun i => 1 <<< i))
      ((List.range 31).map (spec_seed_word seed)) := by
  refine ⟨by simp, by simp, ?_⟩
  intro k hk
  rw [getD_map_range _ _ _ _ hk, getD_map_range _ _ _ _ hk]
  constructor
  · have h1 : (1 : Nat) <<< k = 2 ^ k := Nat.one_shiftLeft k
    rw [h1, U31]
    calc (2 : Nat) ^ k ≤ 2 ^ 30 := Nat.pow_le_pow_right (by norm_num) (by omega)
    _ < 2147483648 := by norm_num
  · exact dotp_unit seed k hk

theorem ParRel_rotate (seed : Nat) (P L : List Nat) (h : ParRel seed P L) :
    ParRel seed (spec_rotate P) (spec_rotate L) := by
  obtain ⟨hP, hL, hk⟩ := h
  refine ⟨?_, ?_, ?_⟩
  · rw [spec_rotate, List.length_append, List.length_tail, hP,
      List.length_singleton]
  · rw [spec_rotate, List.length_append, List.length_tail, hL,
      List.length_singleton]
  · intro k hkk
    by_cases h30 : k < 30
    · rw [spec_rotate, spec_rotate,
        getD_append_lt _ _ _ _ (by rw [List.length_tail, hP]; omega),
        getD_append_lt _ _ _ _ (by rw [List.length_tail, hL]; omega),
        getD_tail, getD_tail]
      exact hk (k + 1) (by omega)
    · have hk30 : k = 30 := by omega
      subst hk30
      rw [spec_rotate, spec_rotate,
        show (30 : Nat) = P.tail.length from by rw [List.length_tail, hP],
        getD_append_at_length]
      rw [show P.tail.length = L.tail.length from by
        rw [List.length_tail, List.length_tail, hP, hL]]
      rw [getD_append_at_length]
      exact hk 0 (by omega)

theorem ParRel_advance (seed : Nat) (P L : List Nat) (h : ParRel seed P L) :
    ParRel seed (par_advance P) (spec_advance L) := by
  obtain ⟨hP, hL, hk⟩ := h
  refine ⟨?_, ?_, ?_⟩
  · rw [par_advance, List.length_append, List.length_tail, hP,
      List.length_singleton]
  · rw [spec_advance, List.length_append, List.length_tail, hL,
      List.length_singleton]
  · intro k hkk
    by_cases h30 : k < 30
    · rw [par_advance, spec_advance,
        getD_append_lt _ _ _ _ (by rw [List.length_tail, hP]; omega),
        getD_append_lt _ _ _ _ (by rw [List.length_tail, hL]; omega),
        getD_tail, getD_tail]
      exact hk (k + 1) (by omega)
    · have hk30 : k = 30 := by omega
      subst hk30
      rw [par_advance, spec_advance,
        show (30 : Nat) = P.tail.length from by rw [List.length_tail, hP],
        getD_append_at_length]
      rw [show P.tail.length = L.tail.length from by
        rw [List.length_tail, List.length_tail, hP, hL]]
      rw [getD_append_at_length]
      rw [hP, hL]
      obtain ⟨hb28, hd28⟩ := hk 28 (by omega)
      obtain ⟨hb0, hd0⟩ := hk 0 (by omega)
      constructor
      · have h31 : U31 = 2 ^ 31 := by rw [U31]; norm_num
        rw [h31] at hb28 hb0 ⊢
        exact Nat.xor_lt_two_pow hb28 hb0
      · rw [dotp_xor, hd28, hd0, sum_parity]

theorem ParRel_iterate (seed : Nat) (P L : List Nat) (h : ParRel seed P L) (n : Nat) :
    ParRel seed (par_advance^[n] P) (spec_advance^[n] L) := by
  induction n with
  | zero => exact h
  | succ n ih =>
    rw [Function.iterate_succ_apply', Function.iterate_succ_apply']
    exact ParRel_advance seed _ _ ih

/-- The inductive invariant carried by the solver along a genuine stream of
generator outputs: parity correspondence, history window contents, and an
equation system whose rows are all satisfied by the augmented initial-parity
vector. -/
structure SolverInv (seed n : Nat) (s : solver) : Prop where
  parRel : ParRel seed s.parity.toList
    (reference_generator.advance_state^[n] (reference_generator.from_seed seed)).toList
  psize : s.parity.size_ = 31
  hsize : s.history.size_ = min n 31
  hlist : s.history.toList =
    ((reference_generator.advance_state^[n]
      (reference_generator.from_seed seed)).toList.drop (31 - min n 31)).map (fun x => x / 2)
  erank : s.equations.rank = s.equations.matrix.mrank
  einv : s.equations.matrix.Inv
  esat : ∀ i, i < 32 → dotp (s.equations.matrix.row i) (wstar seed) = 0

theorem ParRel_rotate_iter (seed : Nat) (P L : List Nat) (h : ParRel seed P L) (n : Nat) :
    ParRel seed (spec_rotate^[n] P) (spec_rotate^[n] L) := by
  induction n with
  | zero => exact h
  | succ n ih =>
    rw [Function.iterate_succ_apply', Function.iterate_succ_apply']
    exact ParRel_rotate seed _ _ ih

theorem mrank_zero : semicanonical_b32x32.zero.mrank = 0 := by
  unfold semicanonical_b32x32.mrank
  rw [Finset.card_eq_zero, Finset.filter_eq_empty_iff]
  intro i _
  simp [semicanonical_b32x32.row_zero]

theorem from_seed_toList (seed : Nat) :
    (reference_generator.from_seed seed).toList =
      spec_advance^[310] (spec_rotate^[3] (spec_initial_list seed)) ∧
    (reference_generator.from_seed seed).size_ = 31 := by
  obtain ⟨hsz, hf, hl⟩ := reference_generator.table_from_seed_toList seed
  obtain ⟨h1, h2⟩ := reference_generator.toList_iterate_advance _ hsz 310
  rw [hl] at h1
  exact ⟨h1, h2⟩

theorem SolverInv_init (seed : Nat) : SolverInv seed 0 solver_init := by
  obtain ⟨hpl, hps⟩ := solver_init_parity
  obtain ⟨hgl, hgs⟩ := from_seed_toList seed
  refine ⟨?_, hps, ?_, ?_, ?_, ?_, ?_⟩
  · rw [Function.iterate_zero_apply, hpl, hgl]
    exact ParRel_iterate seed _ _
      (ParRel_rotate_iter seed _ _ (ParRel_base seed) 3) 310
  · rfl
  · rw [Function.iterate_zero_apply, Nat.zero_min, Nat.sub_zero]
    rw [List.drop_eq_nil_of_le
      (by rw [cyclic_fixed_queue.length_toList, hgs])]
    rfl
  · exact mrank_zero.symm
  · exact semicanonical_b32x32.Inv_zero
  · intro i hi
    have hm : solver_init.equations.matrix = semicanonical_b32x32.zero := rfl
    rw [hm, semicanonical_b32x32.row_zero]
    exact dotp_zero _

theorem getD_map {T U : Type} (f : T → U) (l : List T) (k : Nat) (d : T) (e : U)
    (h : k < l.length) : (l.map f).getD k e = f (l.getD k d) := by
  rw [List.getD_eq_getElem _ e (by rw [List.length_map]; exact h), List.getElem_map,
    List.getD_eq_getElem _ d h]

theorem bit_reassemble (x : Nat) : (x / 2 * 2) ||| (x % 2) = x := by
  apply Nat.eq_of_testBit_eq
  intro j
  rw [Nat.testBit_or]
  cases j with
  | zero =>
    rw [Nat.testBit_zero, Nat.testBit_zero, Nat.testBit_zero, Nat.mul_mod_left,
      Nat.mod_mod_of_dvd x (by norm_num)]
    simp
  | succ j =>
    rw [Nat.testBit_add_one, Nat.testBit_add_one, Nat.testBit_add_one,
      Nat.mul_div_cancel _ (by norm_num)]
    have h2 : x % 2 / 2 = 0 := by omega
    rw [h2]
    simp

/-- The value returned by `advance()` as a function of the logical window. -/
theorem advance_out_formula (g : reference_generator.table_type) (h : g.size_ = 31) :
    reference_generator.advance_out g =
      ((g.toList.getD 28 0 + g.toList.getD 0 0) % U32) >>> 1 := by
  unfold reference_generator.advance_out reference_generator.peek_state
  rw [show (-3 : Int) = -((3 : Nat) : Int) by norm_num,
    show (-31 : Int) = -((31 : Nat) : Int) by norm_num,
    cyclic_fixed_queue.rel_neg _ 3 (by omega) (by omega),
    cyclic_fixed_queue.rel_neg _ 31 (by omega) (by omega), h]
  rfl

/-- Two generator states with the same size-31 logical window produce the same
output stream. -/
theorem output_congr (g1 g2 : reference_generator.table_type)
    (h1 : g1.size_ = 31) (h2 : g2.size_ = 31) (h : g1.toList = g2.toList) (k : Nat) :
    reference_generator.output g1 k = reference_generator.output g2 k := by
  obtain ⟨ha1, hb1⟩ := reference_generator.toList_iterate_advance g1 h1 k
  obtain ⟨ha2, hb2⟩ := reference_generator.toList_iterate_advance g2 h2 k
  unfold reference_generator.output
  rw [advance_out_formula _ hb1, advance_out_formula _ hb2, ha1, ha2, h]

/-- `feed` in the filling phase, with the let-bindings expanded. -/
theorem feed_eq_fill (s : solver) (v : Nat) (h : s.history.size_ < 31) :
    feed s v = (none, ⟨s.history.push v,
      s.parity.pop_and_push (s.parity.rel (-3) ^^^ s.parity.rel (-31)), s.equations⟩) := by
  unfold feed
  rw [if_pos h]

/-- `feed` with a full history, with the let-bindings expanded. -/
theorem feed_eq_full (s : solver) (v : Nat) (h : ¬ s.history.size_ < 31) :
    feed s v =
      (if v ≠ ((s.history.rel (-31) + s.history.rel (-3)) % U32) % U31 then
        (if (eq_push s.equations (s.parity.rel (-31)) true).1 then
          (some (solve ⟨s.history.pop_and_push v,
             s.parity.pop_and_push (s.parity.rel (-31) ^^^ s.parity.rel (-3)),
             (eq_push s.equations (s.parity.rel (-31)) true).2⟩),
           ⟨s.history.pop_and_push v,
             s.parity.pop_and_push (s.parity.rel (-31) ^^^ s.parity.rel (-3)),
             (eq_push s.equations (s.parity.rel (-31)) true).2⟩)
        else
          (if (eq_push (eq_push s.equations (s.parity.rel (-31)) true).2
              (s.parity.rel (-3)) true).1 then
            (some (solve ⟨s.history.pop_and_push v,
               s.parity.pop_and_push (s.parity.rel (-31) ^^^ s.parity.rel (-3)),
               (eq_push (eq_push s.equations (s.parity.rel (-31)) true).2
                 (s.parity.rel (-3)) true).2⟩),
             ⟨s.history.pop_and_push v,
               s.parity.pop_and_push (s.parity.rel (-31) ^^^ s.parity.rel (-3)),
               (eq_push (eq_push s.equations (s.parity.rel (-31)) true).2
                 (s.parity.rel (-3)) true).2⟩)
          else
            (none, ⟨s.history.pop_and_push v,
               s.parity.pop_and_push (s.parity.rel (-31) ^^^ s.parity.rel (-3)),
               (eq_push (eq_push s.equations (s.parity.rel (-31)) true).2
                 (s.parity.rel (-3)) true).2⟩)))
      else
        (none, ⟨s.history.pop_and_push v,
          s.parity.pop_and_push (s.parity.rel (-31) ^^^ s.parity.rel (-3)),
          s.equations⟩)) := by
  unfold feed
  rw [if_neg h]

/-- The equation-system part of the solver invariant: the stored rank is the
matrix rank, the matrix invariant holds, and every row is orthogonal to the
augmented initial-parity vector. -/
def EqInv (seed : Nat) (e : solver_equations) : Prop :=
  e.rank = e.matrix.mrank ∧ e.matrix.Inv ∧
  ∀ i, i < 32 → dotp (e.matrix.row i) (wstar seed) = 0

theorem eq_push_true_eq (e : solver_equations) (q : Nat) :
    eq_push e q true =
      (((e.rank + (if (e.matrix.push_row (q ||| (1 <<< 31))).1 then 1 else 0)) == 31),
       ⟨e.rank + (if (e.matrix.push_row (q ||| (1 <<< 31))).1 then 1 else 0),
        (e.matrix.push_row (q ||| (1 <<< 31))).2⟩) := rfl

theorem eq_push_fst (e : solver_equations) (q : Nat) (p : Bool) :
    (eq_push e q p).1 = ((eq_push e q p).2.rank == 31) := rfl

theorem eq_push_inv (seed : Nat) (e : solver_equations) (q : Nat) (h : EqInv seed e)
    (hq : q < U31) (hd : dotp q (wstar seed) = 1) : EqInv seed (eq_push e q true).2 := by
  obtain ⟨hr, hi, hs⟩ := h
  have hc : (q ||| (1 <<< 31)) < U32 := eqrow_lt q hq
  have hcs : dotp (q ||| (1 <<< 31)) (wstar seed) = 0 := by
    rw [eqrow_sat seed q hq, hd]
  rw [eq_push_true_eq]
  refine ⟨?_, semicanonical_b32x32.push_row_Inv _ hi _ hc,
    semicanonical_b32x32.push_row_sat _ hi _ _ hc hs hcs⟩
  show e.rank + _ = semicanonical_b32x32.mrank _
  rw [semicanonical_b32x32.push_row_rank _ hi _ hc, hr]

/-- Feeding the next genuine generator output preserves the solver invariant. -/
theorem SolverInv_feed (seed n : Nat) (hseed : seed < U32) (s : solver)
    (h : SolverInv seed n s) (v : Nat)
    (hv : v = reference_generator.advance_out
      (reference_generator.advance_state^[n] (reference_generator.from_seed seed))) :
    SolverInv seed (n + 1) (feed s v).2 := by
  obtain ⟨hgl0, hgs0⟩ := from_seed_toList seed
  set G := reference_generator.advance_state^[n] (reference_generator.from_seed seed)
    with hGdef
  have hgs : G.size_ = 31 := by
    rw [hGdef]
    exact (reference_generator.toList_iterate_advance _ hgs0 n).2
  have hL : G.toList.length = 31 := by
    rw [cyclic_fixed_queue.length_toList, hgs]
  have hiter : G = reference_generator.advance_state^[n + 310]
      (reference_generator.table_from_seed seed) := by
    rw [hGdef, Function.iterate_add_apply]
    rfl
  have hL32 : ∀ k, k < 31 → G.toList.getD k 0 < U32 := by
    intro k hk
    have hm := gen_elements_lt seed hseed (n + 310)
    rw [← hiter] at hm
    apply hm
    rw [List.getD_eq_getElem G.toList 0 (by rw [hL]; exact hk)]
    exact G.toList.getElem_mem _
  have hadv : spec_advance G.toList =
      G.toList.tail ++ [(G.toList.getD 28 0 + G.toList.getD 0 0) % U32] := by
    unfold spec_advance
    rw [hL]
  have hvL : v = ((G.toList.getD 28 0 + G.toList.getD 0 0) % U32) / 2 := by
    rw [hv, advance_out_formula G hgs, Nat.shiftRight_one]
  have hnext := reference_generator.toList_advance_state G hgs
  by_cases hfill : s.history.size_ < 31
  · rw [feed_eq_fill s v hfill]
    have hn : n < 31 := by
      have := h.hsize
      omega
    refine ⟨?_, ?_, ?_, ?_, h.erank, h.einv, h.esat⟩
    · show ParRel seed
        (s.parity.pop_and_push (s.parity.rel (-3) ^^^ s.parity.rel (-31))).toList
        (reference_generator.advance_state^[n + 1]
          (reference_generator.from_seed seed)).toList
      rw [(toList_parity_step s.parity h.psize).1,
        Function.iterate_succ_apply', ← hGdef, hnext.1]
      exact ParRel_advance seed _ _ h.parRel
    · exact (toList_parity_step s.parity h.psize).2
    · show (s.history.push v).size_ = min (n + 1) 31
      have hx : (s.history.push v).size_ = s.history.size_ + 1 := rfl
      rw [hx, h.hsize]
      omega
    · show (s.history.push v).toList =
        ((reference_generator.advance_state^[n + 1]
          (reference_generator.from_seed seed)).toList.drop
            (31 - min (n + 1) 31)).map (fun x => x / 2)
      rw [cyclic_fixed_queue.toList_push _ _ (by omega), h.hlist,
        Function.iterate_succ_apply', ← hGdef, hnext.1, hadv,
        List.drop_append_of_le_length (by rw [List.length_tail, hL]; omega),
        ← List.drop_one, List.drop_drop, List.map_append]
      have hidx : 1 + (31 - min (n + 1) 31) = 31 - min n 31 := by omega
      rw [hidx, hvL]
      rfl
  · rw [feed_eq_full s v hfill]
    have hs31 : s.history.size_ = 31 := by
      have := h.hsize
      omega
    have hn31 : 31 ≤ n := by
      have := h.hsize
      omega
    have hps : s.parity.size_ = 31 := h.psize
    have hq31 : s.parity.rel (-31) = s.parity.toList.getD 0 0 := by
      rw [show (-31 : Int) = -((31 : Nat) : Int) by norm_num,
        cyclic_fixed_queue.rel_neg _ 31 (by omega) (by omega), hps]
      rfl
    have hq3 : s.parity.rel (-3) = s.parity.toList.getD 28 0 := by
      rw [show (-3 : Int) = -((3 : Nat) : Int) by norm_num,
        cyclic_fixed_queue.rel_neg _ 3 (by omega) (by omega), hps]
      rfl
    have hHL : s.history.toList = G.toList.map (fun x => x / 2) := by
      have hx := h.hlist
      rw [show 31 - min n 31 = 0 by omega, List.drop_zero] at hx
      exact hx
    have ho31 : s.history.rel (-31) = G.toList.getD 0 0 / 2 := by
      rw [show (-31 : Int) = -((31 : Nat) : Int) by norm_num,
        cyclic_fixed_queue.rel_neg _ 31 (by omega) (by omega), hs31]
      show s.history.toList.getD 0 0 = _
      rw [hHL]
      exact getD_map _ _ _ 0 _ (by rw [hL]; omega)
    have ho3 : s.history.rel (-3) = G.toList.getD 28 0 / 2 := by
      rw [show (-3 : Int) = -((3 : Nat) : Int) by norm_num,
        cyclic_fixed_queue.rel_neg _ 3 (by omega) (by omega), hs31]
      show s.history.toList.getD 28 0 = _
      rw [hHL]
      exact getD_map _ _ _ 0 _ (by rw [hL]; omega)
    have hstep : ∀ X : solver,
        X.history = s.history.pop_and_push v →
        X.parity = s.parity.pop_and_push (s.parity.rel (-31) ^^^ s.parity.rel (-3)) →
        EqInv seed X.equations →
        SolverInv seed (n + 1) X := by
      intro X hX1 hX2 hX3
      refine ⟨?_, ?_, ?_, ?_, hX3.1, hX3.2.1, hX3.2.2⟩
      · rw [hX2, cyclic_fixed_queue.toList_pop_and_push _ _ (by omega),
          hq31, hq3, Function.iterate_succ_apply', ← hGdef, hnext.1]
        have hpar : s.parity.toList.tail ++
            [s.parity.toList.getD 0 0 ^^^ s.parity.toList.getD 28 0] =
            par_advance s.parity.toList := by
          unfold par_advance
          rw [h.parRel.1]
          norm_num
          rw [Nat.xor_comm]
        rw [hpar]
        exact ParRel_advance seed _ _ h.parRel
      · rw [hX2, cyclic_fixed_queue.size_pop_and_push, h.psize]
      · rw [hX1, cyclic_fixed_queue.size_pop_and_push, hs31]
        omega
      · rw [hX1, cyclic_fixed_queue.toList_pop_and_push _ _ (by omega),
          Function.iterate_succ_apply', ← hGdef, hnext.1, hadv,
          show 31 - min (n + 1) 31 = 0 by omega, List.drop_zero,
          List.map_append, hHL, ← List.map_tail, hvL]
        rfl
    by_cases hc : v = ((s.history.rel (-31) + s.history.rel (-3)) % U32) % U31
    · rw [if_neg (not_not_intro hc)]
      exact hstep _ rfl rfl ⟨h.erank, h.einv, h.esat⟩
    · rw [if_pos hc]
      have hcarry : G.toList.getD 28 0 % 2 = 1 ∧ G.toList.getD 0 0 % 2 = 1 := by
        rw [ho31, ho3, hvL, Nat.add_comm (G.toList.getD 0 0 / 2)] at hc
        exact (carry_ne _ _ (hL32 28 (by omega)) (hL32 0 (by omega))).mp hc
      have hd31 : dotp (s.parity.toList.getD 0 0) (wstar seed) = 1 := by
        rw [(h.parRel.2.2 0 (by omega)).2, hcarry.2]
      have hd3 : dotp (s.parity.toList.getD 28 0) (wstar seed) = 1 := by
        rw [(h.parRel.2.2 28 (by omega)).2, hcarry.1]
      have hlt31 : s.parity.toList.getD 0 0 < U31 := (h.parRel.2.2 0 (by omega)).1
      have hlt3 : s.parity.toList.getD 28 0 < U31 := (h.parRel.2.2 28 (by omega)).1
      have hE1 : EqInv seed (eq_push s.equations (s.parity.rel (-31)) true).2 := by
        rw [hq31]
        exact eq_push_inv seed _ _ ⟨h.erank, h.einv, h.esat⟩ hlt31 hd31
      have hE2 : EqInv seed (eq_push (eq_push s.equations (s.parity.rel (-31)) true).2
          (s.parity.rel (-3)) true).2 := by
        rw [hq3]
        exact eq_push_inv seed _ _ hE1 hlt3 hd3
      by_cases hr1 : (eq_push s.equations (s.parity.rel (-31)) true).1 = true
      · rw [if_pos hr1]
        exact hstep _ rfl rfl hE1
      · rw [if_neg hr1]
        by_cases hr2 : (eq_push (eq_push s.equations (s.parity.rel (-31)) true).2
            (s.parity.rel (-3)) true).1 = true
        · rw [if_pos hr2]
          exact hstep _ rfl rfl hE2
        · rw [if_neg hr2]
          exact hstep _ rfl rfl hE2

theorem orSum_congr (f g : Nat → Nat) (n : Nat) (h : ∀ i, i < n → f i = g i) :
    orSum f n = orSum g n := by
  induction n with
  | zero => rfl
  | succ n ih =>
    rw [orSum_succ, orSum_succ, ih (fun i hi => h i (by omega)), h n (by omega)]

theorem orSum_cons (f : Nat → Nat) (n : Nat) :
    orSum f (n + 1) = f 0 ||| orSum (fun k => f (k + 1)) n := by
  induction n with
  | zero =>
    rw [orSum_succ]
    show orSum f 0 ||| f 0 = f 0 ||| orSum _ 0
    rw [show orSum f 0 = 0 from rfl, show orSum (fun k => f (k + 1)) 0 = 0 from rfl,
      Nat.zero_or, Nat.or_zero]
  | succ n ih =>
    rw [orSum_succ, ih, orSum_succ (fun k => f (k + 1)) n, Nat.or_assoc]

theorem fold_bits (g : Nat → Nat) : ∀ (l : List Nat) (a j : Nat),
    (l.foldl (fun (acc : Nat × Nat) c => (acc.1 ||| (g c <<< acc.2), acc.2 + 1)) (a, j)).1 =
      a ||| orSum (fun k => g (l.getD k 0) <<< (j + k)) l.length := by
  intro l
  induction l with
  | nil =>
    intro a j
    show a = a ||| orSum _ 0
    rw [show orSum (fun k => g (([] : List Nat).getD k 0) <<< (j + k)) 0 = 0 from rfl,
      Nat.or_zero]
  | cons c t ih =>
    intro a j
    show (t.foldl _ (a ||| (g c <<< j), j + 1)).1 = _
    rw [ih]
    have h1 : orSum (fun k => g ((c :: t).getD k 0) <<< (j + k)) (t.length + 1) =
        (g c <<< j) ||| orSum (fun k => g (t.getD k 0) <<< (j + 1 + k)) t.length := by
      rw [orSum_cons]
      congr 1
      apply orSum_congr
      intro i _
      show g (t.getD i 0) <<< (j + (i + 1)) = g (t.getD i 0) <<< (j + 1 + i)
      rw [show j + (i + 1) = j + 1 + i by omega]
    show _ = a ||| orSum (fun k => g ((c :: t).getD k 0) <<< (j + k)) (t.length + 1)
    rw [h1, Nat.or_assoc]

theorem solve_parities_eq (s : solver) :
    solve_parities s =
      orSum (fun k => dotp (s.parity.toList.getD k 0)
        (orSum (fun i => ((s.equations.matrix.row i) >>> 31) <<< i) 32) <<< k)
        s.parity.toList.length := by
  have h := fold_bits (fun c => popcount (c &&&
      (orSum (fun i => ((s.equations.matrix.row i) >>> 31) <<< i) 32)) % 2)
    s.parity.toList 0 0
  rw [Nat.zero_or] at h
  refine Eq.trans h ?_
  apply orSum_congr
  intro i _
  rw [Nat.zero_add]
  rfl

theorem solve_eq (s : solver) (hs : s.history.size_ = 31) :
    solve s = cfq_from_list ((List.range 31).map (fun k =>
      (((s.history.toList.getD k 0) <<< 1) % U32) |||
        (((solve_parities s) >>> k) &&& 1))) := by
  unfold solve
  rw [hs]

theorem shift31_eq (x : Nat) (hx : x < U32) :
    x >>> 31 = if x.testBit 31 then 1 else 0 := by
  have h31 : (2 : Nat) ^ 31 = 2147483648 := by norm_num
  have h32 : U32 = 4294967296 := rfl
  have hd : x >>> 31 < 2 := by
    rw [Nat.shiftRight_eq_div_pow, h31]
    omega
  rw [Nat.shiftRight_eq_div_pow] at hd ⊢
  rw [Nat.testBit_to_div_mod]
  rcases (by omega : x / 2 ^ 31 = 0 ∨ x / 2 ^ 31 = 1) with h0 | h1
  · rw [h0]
    norm_num
  · rw [h1]
    norm_num

theorem orSum_bits_extract (f : Nat → Nat) (n k : Nat) (hk : k < n)
    (hb : ∀ i, i < n → f i < 2) :
    ((orSum (fun i => f i <<< i) n) >>> k) &&& 1 = f k := by
  rw [Nat.and_one_is_mod]
  have ht : (orSum (fun i => f i <<< i) n).testBit k = decide (f k = 1) := by
    rw [testBit_orSum, bOrSum_single _ n k hk]
    · rw [testBit_bit_shift _ _ _ (hb k hk)]
      simp
    · intro i hi hik
      rw [testBit_bit_shift _ _ _ (hb i hi)]
      simp [Ne.symm hik]
  rw [Nat.shiftRight_eq_div_pow]
  rw [Nat.testBit_to_div_mod] at ht
  have hf := hb k hk
  rcases (by omega : f k = 0 ∨ f k = 1) with h0 | h1
  · rw [h0]
    rw [h0] at ht
    simp at ht
    omega
  · rw [h1]
    rw [h1] at ht
    simp at ht
    omega

/-- With a full-rank system built from genuine generator output, `solve`
reconstructs exactly the current generator window. -/
theorem solve_correct (seed m : Nat) (hseed : seed < U32) (s : solver)
    (h : SolverInv seed m s) (hrank : s.equations.rank = 31)
    (hfull : s.history.size_ = 31) :
    (solve s).toList =
      (reference_generator.advance_state^[m]
        (reference_generator.from_seed seed)).toList ∧
    (solve s).size_ = 31 := by
  obtain ⟨hgl0, hgs0⟩ := from_seed_toList seed
  set G := reference_generator.advance_state^[m] (reference_generator.from_seed seed)
    with hGdef
  have hgs : G.size_ = 31 := by
    rw [hGdef]
    exact (reference_generator.toList_iterate_advance _ hgs0 m).2
  have hL : G.toList.length = 31 := by
    rw [cyclic_fixed_queue.length_toList, hgs]
  have hiter : G = reference_generator.advance_state^[m + 310]
      (reference_generator.table_from_seed seed) := by
    rw [hGdef, Function.iterate_add_apply]
    rfl
  have hL32 : ∀ k, k < 31 → G.toList.getD k 0 < U32 := by
    intro k hk
    have hm := gen_elements_lt seed hseed (m + 310)
    rw [← hiter] at hm
    apply hm
    rw [List.getD_eq_getElem G.toList 0 (by rw [hL]; exact hk)]
    exact G.toList.getElem_mem _
  have hmr : s.equations.matrix.mrank = 31 := by
    rw [← h.erank]
    exact hrank
  obtain ⟨hrow31, hrows⟩ := semicanonical_b32x32.full_rank_rows s.equations.matrix
    h.einv (wstar seed) (wstar_testBit31 seed) h.esat hmr
  have hb2 : ∀ i, i < 32 → (s.equations.matrix.row i) >>> 31 < 2 := by
    intro i hi
    have hlt := h.einv.1 i hi
    have h31 : (2 : Nat) ^ 31 = 2147483648 := by norm_num
    have h32 : U32 = 4294967296 := rfl
    rw [Nat.shiftRight_eq_div_pow, h31]
    omega
  have hinit : orSum (fun i => ((s.equations.matrix.row i) >>> 31) <<< i) 32 =
      pstar seed := by
    apply Nat.eq_of_testBit_eq
    intro j
    rw [testBit_orSum]
    by_cases hj : j < 31
    · rw [bOrSum_single _ 32 j (by omega)]
      · rw [testBit_bit_shift _ _ _ (hb2 j (by omega))]
        rw [shift31_eq _ (h.einv.1 j (by omega))]
        rw [← (hrows j hj).2.2.2, wstar_testBit_lt seed j hj]
        by_cases hw : (pstar seed).testBit j = true
        · rw [hw]
          simp
        · rw [Bool.not_eq_true] at hw
          rw [hw]
          simp
      · intro i hi hij
        rw [testBit_bit_shift _ _ _ (hb2 i hi)]
        simp [Ne.symm hij]
    · rw [bOrSum_false_fn]
      · have hplt : pstar seed < 2 ^ j := by
          calc pstar seed < U31 := pstar_lt seed
          _ = 2 ^ 31 := by rw [U31]; norm_num
          _ ≤ 2 ^ j := Nat.pow_le_pow_right (by norm_num) (by omega)
        rw [Nat.testBit_lt_two_pow hplt]
      · intro i hi
        rw [testBit_bit_shift _ _ _ (hb2 i hi)]
        by_cases hij : j = i
        · have hi31 : i = 31 := by omega
          rw [hi31] at hij ⊢
          rw [hrow31]
          simp
        · simp [hij]
  have hmin : min m 31 = 31 := by
    have := h.hsize
    omega
  have hHL : s.history.toList = G.toList.map (fun x => x / 2) := by
    have hx := h.hlist
    rw [show 31 - min m 31 = 0 by omega, List.drop_zero] at hx
    exact hx
  have hbits : solve_parities s =
      orSum (fun k => ((G.toList.getD k 0) % 2) <<< k) 31 := by
    rw [solve_parities_eq, hinit, h.parRel.1]
    apply orSum_congr
    intro k hk
    have h1 := h.parRel.2.2 k hk
    rw [← dotp_wstar_eq_pstar seed _ h1.1, h1.2]
  have hlist2 : (List.range 31).map (fun k =>
      (((s.history.toList.getD k 0) <<< 1) % U32) |||
        (((solve_parities s) >>> k) &&& 1)) = G.toList := by
    apply list_eq_of_getD _ _ 0
    · rw [List.length_map, List.length_range, hL]
    · intro k hk
      rw [List.length_map, List.length_range] at hk
      rw [getD_map_range _ _ _ _ hk]
      rw [hbits, orSum_bits_extract _ 31 k hk (fun i _ => Nat.mod_lt _ (by norm_num))]
      rw [hHL, getD_map _ _ _ 0 _ (by rw [hL]; exact hk)]
      have h32 : U32 = 4294967296 := rfl
      have hk32 := hL32 k hk
      rw [Nat.shiftLeft_eq, pow_one, Nat.mod_eq_of_lt (by omega)]
      exact bit_reassemble _
  rw [solve_eq s hfull, hlist2]
  obtain ⟨hc1, hc2, hc3⟩ := cfq_from_list_spec (C := 31) G.toList (by rw [hL])
  rw [hc3, hL]
  exact ⟨hc1, rfl⟩

/-- The harness invariant: after `n` feeds the solver satisfies the invariant
at step `n`, and the source generator has advanced `n` times. -/
theorem sim_step_eq (p : solver × reference_generator.table_type) :
    sim_step p = ((feed p.1 (reference_generator.advance_out p.2)).1,
      ((feed p.1 (reference_generator.advance_out p.2)).2,
        reference_generator.advance_state p.2)) := rfl

theorem sim_zero (seed : Nat) :
    sim seed 0 = (solver_init, reference_generator.from_seed seed) := rfl

theorem sim_inv (seed : Nat) (hseed : seed < U32) (n : Nat) :
    SolverInv seed n (sim seed n).1 ∧
    (sim seed n).2 =
      reference_generator.advance_state^[n] (reference_generator.from_seed seed) := by
  induction n with
  | zero =>
    rw [sim_zero]
    constructor
    · exact SolverInv_init seed
    · rw [Function.iterate_zero_apply]
  | succ n ih =>
    obtain ⟨h1, h2⟩ := ih
    have hstep : sim seed (n + 1) = (sim_step (sim seed n)).2 := by
      unfold sim
      rw [Function.iterate_succ_apply']
    rw [hstep, sim_step_eq]
    constructor
    · show SolverInv seed (n + 1)
        (feed (sim seed n).1 (reference_generator.advance_out (sim seed n).2)).2
      rw [h2]
      exact SolverInv_feed seed n hseed _ h1 _ rfl
    · show reference_generator.advance_state (sim seed n).2 = _
      rw [h2]
      exact (Function.iterate_succ_apply' _ _ _).symm

/-- When `feed` reports a generator, it is `solve` of the updated solver, the
rank has just reached 31, and the history was already full. -/
theorem feed_some (s : solver) (v : Nat) (G : reference_generator.table_type)
    (hG : (feed s v).1 = some G) :
    G = solve (feed s v).2 ∧ (feed s v).2.equations.rank = 31 ∧
    (feed s v).2.history.size_ = s.history.size_ - 1 + 1 ∧
    ¬ s.history.size_ < 31 := by
  by_cases hfill : s.history.size_ < 31
  · rw [feed_eq_fill s v hfill] at hG
    exact absurd hG (by simp)
  · rw [feed_eq_full s v hfill] at hG ⊢
    by_cases hc : v ≠ ((s.history.rel (-31) + s.history.rel (-3)) % U32) % U31
    · rw [if_pos hc] at hG ⊢
      by_cases hr1 : (eq_push s.equations (s.parity.rel (-31)) true).1 = true
      · rw [if_pos hr1] at hG ⊢
        have hGs : some (solve _) = some G := hG
        refine ⟨(Option.some.inj hGs).symm, ?_, rfl, hfill⟩
        rw [eq_push_fst] at hr1
        exact beq_iff_eq.mp hr1
      · rw [if_neg hr1] at hG ⊢
        by_cases hr2 : (eq_push (eq_push s.equations (s.parity.rel (-31)) true).2
            (s.parity.rel (-3)) true).1 = true
        · rw [if_pos hr2] at hG ⊢
          have hGs : some (solve _) = some G := hG
          refine ⟨(Option.some.inj hGs).symm, ?_, rfl, hfill⟩
          rw [eq_push_fst] at hr2
          exact beq_iff_eq.mp hr2
        · rw [if_neg hr2] at hG
          exact absurd hG (by simp)
    · rw [if_neg hc] at hG
      exact absurd hG (by simp)

/-! The claim theorems. -/

/-- C1: solver soundness.  For every non-zero 32-bit seed, if the solver is
fed the successive outputs of a reference generator (the harness loop of
test_solver.cpp, `sim`) and feed number `n+1` returns a generator `G`, then
for every `k` in `[0, 2^31)` the `k`-th subsequent output of `G` equals the
`k`-th subsequent output of the source generator. -/
theorem C1_solver_soundness (seed n : Nat) (h0 : seed ≠ 0) (hseed : seed < U32)
    (G : reference_generator.table_type) (hG : sim_result seed n = some G)
    (k : Nat) (hk : k < 2 ^ 31) :
    reference_generator.output G k =
      reference_generator.output
        (reference_generator.advance_state^[n + 1]
          (reference_generator.from_seed seed)) k := by
  obtain ⟨hinv, hgen⟩ := sim_inv seed hseed n
  have hres : sim_result seed n =
      (feed (sim seed n).1 (reference_generator.advance_out (sim seed n).2)).1 := by
    unfold sim_result
    rw [sim_step_eq]
  rw [hres] at hG
  obtain ⟨hsol, hrank, hsz, hnf⟩ := feed_some _ _ _ hG
  have hv : reference_generator.advance_out (sim seed n).2 =
      reference_generator.advance_out (reference_generator.advance_state^[n]
        (reference_generator.from_seed seed)) := by
    rw [hgen]
  have hinv1 : SolverInv seed (n + 1)
      (feed (sim seed n).1 (reference_generator.advance_out (sim seed n).2)).2 :=
    SolverInv_feed seed n hseed _ hinv _ hv
  have hfull : (feed (sim seed n).1
      (reference_generator.advance_out (sim seed n).2)).2.history.size_ = 31 := by
    rw [hsz]
    have h1 := hinv.hsize
    omega
  obtain ⟨hslist, hssize⟩ := solve_correct seed (n + 1) hseed _ hinv1 hrank hfull
  obtain ⟨hgl0, hgs0⟩ := from_seed_toList seed
  have hgsize : (reference_generator.advance_state^[n + 1]
      (reference_generator.from_seed seed)).size_ = 31 :=
    (reference_generator.toList_iterate_advance _ hgs0 (n + 1)).2
  rw [hsol]
  exact output_congr _ _ hssize hgsize hslist k

set_option maxRecDepth 10000 in
/-- C2 counterexample: at seed `2^31` — a non-zero 32-bit seed — the
generator's 0th output does not match the scalar reference of
compare_implementation.cpp at index 344, because the scalar reference omits
the signed 32-bit cast in the seed expansion. -/
theorem C2_bit_exactness_counterexample :
    reference_generator.output (reference_generator.from_seed 2147483648) 0 ≠
      ref_val 2147483648 (0 + 344) >>> 1 := by decide

/-- C2, amended: bit-exactness against the scalar reference holds for the
seeds whose signed 32-bit interpretation is non-negative, `0 < s < 2^31`: the
`n`-th output of the generator constructed from `s` equals entry `n + 344` of
the scalar reference buffer shifted right by one. -/
theorem C2_bit_exactness_amended (s : Nat) (h0 : s ≠ 0) (hs : s < U31) (n : Nat) :
    reference_generator.output (reference_generator.from_seed s) n =
      ref_val s (n + 344) >>> 1 :=
  output_eq_ref s hs n

/-- C2 witness: the amended bit-exactness at seed 1, output 0. -/
theorem C2_bit_exactness_witness :
    (1 : Nat) ≠ 0 ∧ (1 : Nat) < U31 ∧
    reference_generator.output (reference_generator.from_seed 1) 0 =
      ref_val 1 (0 + 344) >>> 1 :=
  ⟨by decide, by decide, C2_bit_exactness_amended 1 (by decide) (by decide) 0⟩

set_option maxRecDepth 10000 in
/-- C3 counterexample: feed the solver 31 zeros and then 1.  The resulting
carry event pushes the first equation row and that push is linearly
independent (push_row on the zero matrix returns true), yet the second
equation is pushed as well — the final rank is 2 — refuting that the second
push happens only when the first was dependent. -/
theorem C3_carry_equations_counterexample :
    ((feedAll solver_init (List.replicate 31 0)).equations.matrix.push_row
      (((feedAll solver_init (List.replicate 31 0)).parity.rel (-31)) ||| (1 <<< 31))).1
      = true ∧
    (feed (feedAll solver_init (List.replicate 31 0)) 1).2.equations.rank = 2 :=
  ⟨rfl, rfl⟩

/-- C3, amended: on a carry event the solver always pushes the first equation
(row `q31` with bit 31 set); the second equation (row `q3`) is pushed exactly
when the first `equations.push` returned false, and that return value reports
whether the rank just reached 31 — not whether the row was dependent. -/
theorem C3_carry_equations_amended (s : solver) (v : Nat)
    (hfull : ¬ s.history.size_ < 31)
    (hne : v ≠ ((s.history.rel (-31) + s.history.rel (-3)) % U32) % U31) :
    ((feed s v).2.equations =
      if (eq_push s.equations (s.parity.rel (-31)) true).1 = true then
        (eq_push s.equations (s.parity.rel (-31)) true).2
      else
        (eq_push (eq_push s.equations (s.parity.rel (-31)) true).2
          (s.parity.rel (-3)) true).2) ∧
    ((eq_push s.equations (s.parity.rel (-31)) true).1 = true ↔
      (eq_push s.equations (s.parity.rel (-31)) true).2.rank = 31) := by
  constructor
  · rw [feed_eq_full s v hfull, if_pos hne]
    by_cases hr1 : (eq_push s.equations (s.parity.rel (-31)) true).1 = true
    · rw [if_pos hr1, if_pos hr1]
    · rw [if_neg hr1, if_neg hr1]
      by_cases hr2 : (eq_push (eq_push s.equations (s.parity.rel (-31)) true).2
          (s.parity.rel (-3)) true).1 = true
      · rw [if_pos hr2]
      · rw [if_neg hr2]
  · rw [eq_push_fst]
    exact beq_iff_eq

/-- C5: the semi-canonical matrix invariant.  For any sequence of 32-bit rows
pushed from the zero matrix and any further 32-bit row `r`: after pushing `r`
the matrix is in semi-canonical form; the rank (count of non-zero rows) is
incremented by one exactly when push_row returned true; when it returned true
the span is the old span extended by `r`, and when it returned false the
matrix is unchanged. -/
theorem C5_push_row_invariant (l : List Nat) (hl : ∀ x ∈ l, x < U32)
    (r : Nat) (hr : r < U32) :
    semicanonical_b32x32.SemiCanonicalForm
      ((semicanonical_b32x32.pushAll l).push_row r).2 ∧
    semicanonical_b32x32.mrank ((semicanonical_b32x32.pushAll l).push_row r).2 =
      semicanonical_b32x32.mrank (semicanonical_b32x32.pushAll l) +
        (if ((semicanonical_b32x32.pushAll l).push_row r).1 then 1 else 0) ∧
    (((semicanonical_b32x32.pushAll l).push_row r).1 = true →
      ∀ v : Nat, (((semicanonical_b32x32.pushAll l).push_row r).2.inSpan v ↔
        ((semicanonical_b32x32.pushAll l).inSpan v ∨
          (semicanonical_b32x32.pushAll l).inSpan (v ^^^ r)))) ∧
    (((semicanonical_b32x32.pushAll l).push_row r).1 = false →
      ((semicanonical_b32x32.pushAll l).push_row r).2 =
        semicanonical_b32x32.pushAll l) := by
  have hInv := semicanonical_b32x32.Inv_pushAll l hl
  refine ⟨?_, ?_, ?_, ?_⟩
  · exact semicanonical_b32x32.SemiCanonicalForm_of_Inv _
      (semicanonical_b32x32.push_row_Inv _ hInv r hr)
  · exact semicanonical_b32x32.push_row_rank _ hInv r hr
  · intro hfst v
    exact semicanonical_b32x32.push_row_true_span _ hInv r hr
      ((semicanonical_b32x32.push_row_fst_iff _ r).mp hfst) v
  · intro hfst
    have hz : r ^^^ (semicanonical_b32x32.pushAll l).row_sum r = 0 := by
      by_contra hnz
      rw [(semicanonical_b32x32.push_row_fst_iff _ r).mpr hnz] at hfst
      simp at hfst
    rw [semicanonical_b32x32.push_row_of_reduce_zero _ r hz]

/-- C5 witness: the invariant instantiated after pushing rows 1 and 3 and then
pushing row 2. -/
theorem C5_push_row_invariant_witness :
    (∀ x ∈ ([1, 3] : List Nat), x < U32) ∧ (2 : Nat) < U32 ∧
    (semicanonical_b32x32.SemiCanonicalForm
      ((semicanonical_b32x32.pushAll [1, 3]).push_row 2).2 ∧
    semicanonical_b32x32.mrank ((semicanonical_b32x32.pushAll [1, 3]).push_row 2).2 =
      semicanonical_b32x32.mrank (semicanonical_b32x32.pushAll [1, 3]) +
        (if ((semicanonical_b32x32.pushAll [1, 3]).push_row 2).1 then 1 else 0) ∧
    (((semicanonical_b32x32.pushAll [1, 3]).push_row 2).1 = true →
      ∀ v : Nat, (((semicanonical_b32x32.pushAll [1, 3]).push_row 2).2.inSpan v ↔
        ((semicanonical_b32x32.pushAll [1, 3]).inSpan v ∨
          (semicanonical_b32x32.pushAll [1, 3]).inSpan (v ^^^ 2)))) ∧
    (((semicanonical_b32x32.pushAll [1, 3]).push_row 2).1 = false →
      ((semicanonical_b32x32.pushAll [1, 3]).push_row 2).2 =
        semicanonical_b32x32.pushAll [1, 3])) :=
  ⟨by decide, by decide, C5_push_row_invariant [1, 3] (by decide) 2 (by decide)⟩

/-- C6: the construction from a seed, compared against the construction the
spec describes (spec-modelled `spec_construct`): seed expansion, the three
front-to-back copy steps, and 310 advances of the recurrence, keeping the most
recent 31 words. -/
theorem C6_seed_construction (s : Nat) :
    (reference_generator.from_seed s).toList = spec_construct s := by
  rw [(from_seed_toList s).1]
  rfl

/-- C7: push_row idempotence.  On any matrix reached by pushing 32-bit rows
from the zero matrix, pushing a 32-bit row `r` and then pushing `r` again
makes the second call return false and leave the matrix unchanged. -/
theorem C7_push_row_idempotent (l : List Nat) (hl : ∀ x ∈ l, x < U32)
    (r : Nat) (hr : r < U32) :
    ((semicanonical_b32x32.pushAll l).push_row r).2.push_row r =
      (false, ((semicanonical_b32x32.pushAll l).push_row r).2) := by
  have hInv := semicanonical_b32x32.Inv_pushAll l hl
  by_cases hne : r ^^^ (semicanonical_b32x32.pushAll l).row_sum r = 0
  · rw [semicanonical_b32x32.push_row_of_reduce_zero _ r hne]
    exact semicanonical_b32x32.push_row_of_reduce_zero _ r hne
  · have hInv2 := semicanonical_b32x32.push_row_Inv _ hInv r hr
    have hspan : ((semicanonical_b32x32.pushAll l).push_row r).2.inSpan r := by
      rw [semicanonical_b32x32.push_row_true_span _ hInv r hr hne r]
      right
      rw [Nat.xor_self]
      refine ⟨0, by rw [U32]; norm_num, ?_⟩
      rw [semicanonical_b32x32.row_sum_eq_xorSum]
      apply xorSum_zero_fn
      intro i _
      rw [Nat.zero_testBit]
      rfl
    have hz2 : r ^^^ ((semicanonical_b32x32.pushAll l).push_row r).2.row_sum r = 0 :=
      (semicanonical_b32x32.reduce_eq_zero_iff _ hInv2 r hr).mpr hspan
    exact semicanonical_b32x32.push_row_of_reduce_zero _ r hz2

/-- C7 witness: idempotence after pushing row 1 on the empty matrix. -/
theorem C7_push_row_idempotent_witness :
    (∀ x ∈ ([] : List Nat), x < U32) ∧ (1 : Nat) < U32 ∧
    ((semicanonical_b32x32.pushAll []).push_row 1).2.push_row 1 =
      (false, ((semicanonical_b32x32.pushAll []).push_row 1).2) :=
  ⟨by decide, by decide, C7_push_row_idempotent [] (by decide) 1 (by decide)⟩

/-- C8: ring integrity of the cyclic fixed queue, each property under exactly
its own contract (push needs `size ≤ C` here, matching `size < C` before the
increment in the code's contract; the size of `pop_and_push` is preserved
when `size > 0`, pop's contract): after `push v` the relative index `-1`
reads `v` — including a push onto an empty queue; after `pop` relative index
0 reads what relative index 1 read before; `pop_and_push v` is pop then push,
and it leaves the size unchanged. -/
theorem C8_ring_integrity {T : Type} [Inhabited T] {C : Nat}
    (q : cyclic_fixed_queue T C) (v : T) :
    (q.size_ ≤ C → (q.push v).rel (-1) = v) ∧
    q.pop.rel 0 = q.rel 1 ∧
    q.pop_and_push v = q.pop.push v ∧
    (0 < q.size_ → (q.pop_and_push v).size_ = q.size_) := by
  refine ⟨?_, ?_, rfl, ?_⟩
  · intro hpush
    rw [show (-1 : Int) = -((1 : Nat) : Int) by norm_num,
      cyclic_fixed_queue.rel_neg _ 1 (le_refl 1) (by show 1 ≤ q.size_ + 1; omega),
      cyclic_fixed_queue.toList_push _ _ hpush]
    show (q.toList ++ [v]).getD (q.size_ + 1 - 1) default = v
    rw [Nat.add_sub_cancel,
      show q.size_ = q.toList.length from (cyclic_fixed_queue.length_toList q).symm,
      getD_append_at_length]
  · unfold cyclic_fixed_queue.rel cyclic_fixed_queue.pop
    rw [if_neg (show ¬ (0 : Int) < 0 by norm_num), if_neg (show ¬ (1 : Int) < 0 by norm_num)]
    show q.storage_.getD (((q.front_ + 1) % (C + 1) + 0) % (C + 1)) default =
      q.storage_.getD ((q.front_ + 1) % (C + 1)) default
    rw [Nat.add_zero, Nat.mod_mod_of_dvd _ (dvd_refl (C + 1))]
  · intro hpop
    rw [cyclic_fixed_queue.size_pop_and_push]
    omega

/-- C8 witness: the queue ⟨storage [5,6,7], front 0, size 2⟩ of capacity 2
pushing 9, and the push/relative-index property on the empty queue of
capacity 2 — the base case of every legal operation sequence. -/
def c8q : cyclic_fixed_queue Nat 2 := ⟨[5, 6, 7], 0, 2, by decide⟩

theorem C8_ring_integrity_witness :
    ((c8q.size_ ≤ 2 → (c8q.push 9).rel (-1) = 9) ∧
    c8q.pop.rel 0 = c8q.rel 1 ∧
    c8q.pop_and_push 9 = c8q.pop.push 9 ∧
    (0 < c8q.size_ → (c8q.pop_and_push 9).size_ = c8q.size_)) ∧
    (cyclic_fixed_queue.empty : cyclic_fixed_queue Nat 2).size_ ≤ 2 ∧
    (((cyclic_fixed_queue.empty : cyclic_fixed_queue Nat 2).push 9).rel (-1) = 9) :=
  ⟨C8_ring_integrity c8q 9, by decide,
   (C8_ring_integrity (cyclic_fixed_queue.empty : cyclic_fixed_queue Nat 2) 9).1
     (by decide)⟩

theorem advance_out_lt (g : reference_generator.table_type) :
    reference_generator.advance_out g < 2 ^ 31 := by
  unfold reference_generator.advance_out reference_generator.peek_state
  rw [Nat.shiftRight_one]
  have h32 : U32 = 4294967296 := rfl
  have hm : (g.rel (-3) + g.rel (-31)) % U32 < U32 := Nat.mod_lt _ (by rw [h32]; norm_num)
  have h31 : (2 : Nat) ^ 31 = 2147483648 := by norm_num
  omega

/-- C9: output range.  For every state reachable by construction from a seed
and any number of advances, the value `advance()` returns (and the value
`peek()` reports) lies in `[0, 2^31 - 1]`. -/
theorem C9_output_range (seed n k : Nat) :
    reference_generator.output
      (reference_generator.advance_state^[n]
        (reference_generator.from_seed seed)) k < 2 ^ 31 ∧
    reference_generator.peek
      (reference_generator.advance_state^[n]
        (reference_generator.from_seed seed)) < 2 ^ 31 := by
  constructor
  · exact advance_out_lt _
  · exact advance_out_lt _

/-- C10 (implicit): `peek_state` and `peek` are pure observers — in this
embedding they are functions from the state to a value and return no modified
state, which is the frame property of the `const` members — with
`peek() = peek_state() >> 1`; and the value `advance()` returns equals what
`peek()` reported on the state immediately before, while the state moves by
`pop_and_push(peek_state())`. -/
theorem C10_peek_relations (g : reference_generator.table_type) :
    reference_generator.peek g = reference_generator.peek_state g >>> 1 ∧
    reference_generator.advance_out g = reference_generator.peek g ∧
    reference_generator.advance_state g =
      g.pop_and_push (reference_generator.peek_state g) :=
  ⟨rfl, rfl, rfl⟩

set_option maxRecDepth 10000 in
/-- C3 witness: the amended carry behaviour instantiated after feeding 31
zeros, on the carry event triggered by feeding 1. -/
theorem C3_carry_equations_witness :
    (¬ (feedAll solver_init (List.replicate 31 0)).history.size_ < 31) ∧
    ((1 : Nat) ≠ (((feedAll solver_init (List.replicate 31 0)).history.rel (-31) +
      (feedAll solver_init (List.replicate 31 0)).history.rel (-3)) % U32) % U31) ∧
    (((feed (feedAll solver_init (List.replicate 31 0)) 1).2.equations =
      if (eq_push (feedAll solver_init (List.replicate 31 0)).equations
          ((feedAll solver_init (List.replicate 31 0)).parity.rel (-31)) true).1 = true then
        (eq_push (feedAll solver_init (List.replicate 31 0)).equations
          ((feedAll solver_init (List.replicate 31 0)).parity.rel (-31)) true).2
      else
        (eq_push (eq_push (feedAll solver_init (List.replicate 31 0)).equations
            ((feedAll solver_init (List.replicate 31 0)).parity.rel (-31)) true).2
          ((feedAll solver_init (List.replicate 31 0)).parity.rel (-3)) true).2) ∧
    ((eq_push (feedAll solver_init (List.replicate 31 0)).equations
        ((feedAll solver_init (List.replicate 31 0)).parity.rel (-31)) true).1 = true ↔
      (eq_push (feedAll solver_init (List.replicate 31 0)).equations
        ((feedAll solver_init (List.replicate 31 0)).parity.rel (-31)) true).2.rank = 31)) :=
  ⟨by decide, by decide,
   C3_carry_equations_amended (feedAll solver_init (List.replicate 31 0)) 1
     (by decide) (by decide)⟩

set_option maxRecDepth 100000 in
/-- C4: the carry-branch assertion is violated on genuine generator input.
At seed 16818278, when the 56th output is fed (state after 55 feeds), the
history is full, the fed value is 0 while `expected` is 2147483647: the carry
branch is entered, the modular precondition `value = (expected + 1) mod 2^31`
holds, yet the assertion `value == expected + 1` — written without the modular
reduction — is false, so the assert fires. -/
theorem C4_assert_violation :
    ¬ (sim 16818278 55).1.history.size_ < 31 ∧
    reference_generator.advance_out (sim 16818278 55).2 = 0 ∧
    ((((sim 16818278 55).1.history.rel (-31) +
        (sim 16818278 55).1.history.rel (-3)) % U32) % U31) = 2147483647 ∧
    (0 : Nat) ≠ 2147483647 ∧
    (0 : Nat) ≠ 2147483647 + 1 ∧
    (0 : Nat) = (2147483647 + 1) % U31 :=
  ⟨by decide, rfl, rfl, by decide, by decide, by decide⟩

set_option maxRecDepth 100000 in
/-- C1 witness: the harness at seed 932 returns a generator on feed number 79,
and its next output agrees with the source generator's. -/
theorem C1_solver_soundness_witness :
    (932 : Nat) ≠ 0 ∧ (932 : Nat) < U32 ∧ (0 : Nat) < 2 ^ 31 ∧
    sim_result 932 78 = some ((sim_result 932 78).getD (cfq_from_list [])) ∧
    reference_generator.output ((sim_result 932 78).getD (cfq_from_list [])) 0 =
      reference_generator.output
        (reference_generator.advance_state^[79]
          (reference_generator.from_seed 932)) 0 := by
  have hEq : sim_result 932 78 = some ((sim_result 932 78).getD (cfq_from_list [])) := by
    rfl
  exact ⟨by decide, by decide, by decide, hEq,
    C1_solver_soundness 932 78 (by decide) (by decide) _ hEq 0 (by decide)⟩
